import Mathlib

/-!
Shallow embedding of the STOMP discrete-event queue simulator (`stomp.py`)
and of its DAG manager layer (`meta.py`), together with theorems checking
the behaviours described in the accompanying specification.

Conventions used throughout:
* python integers are modelled by `Int` (or `Nat` for values that are
  manifestly nonnegative counters or indices);
* the python float value `float("inf")` used for event instants is modelled
  by `Option Int`, where `none` stands for plus infinity;
* fallible python code (index errors) is modelled with `Option`;
* the random draws of the simulator (`numpy.random.*`) are passed in as
  explicit oracle arguments, so every definition is a pure function.
-/

namespace Stomp

/-- Levels of the python `logging` module that the embedded code uses. -/
inductive LogLevel
  | debug
  | info
  | warning
  deriving DecidableEq, Repr

/-- `a ≤ b` on event instants, where `none` models `float("inf")`.
`inf <= inf` is true, matching IEEE float comparison in python. -/
def leInf : Option Int → Option Int → Bool
  | _, none => true
  | none, some _ => false
  | some a, some b => a ≤ b

/-- `a < b` on event instants, where `none` models `float("inf")`. -/
def ltInf : Option Int → Option Int → Bool
  | none, _ => false
  | some _, none => true
  | some a, some b => a < b

/-- The fields of a queued `Task` (class `Task` of `stomp.py`) that the
scheduling core reads: its type tag and its arrival time (`sim_time` at
creation).  The service-time parameter dictionaries only feed the random
sampling inside `Server.assign_task` and are left to the policy oracle. -/
structure Task where
  ttype : String
  arrival_time : Int
  deriving DecidableEq, Repr

/-- The fields of a `Server` (class `Server` of `stomp.py`) that the event
loop reads: identity, type tag, busy flag, and the exact end instant of the
currently assigned job (meaningful only while `busy`). -/
structure Server where
  id : Nat
  stype : String
  busy : Bool
  curr_job_end_time : Int
  deriving DecidableEq, Repr

/-- The mutable state of the `STOMP` simulator object that the embedded
operations touch.  Python dictionaries keyed by server/task type are
modelled as association lists. -/
structure SimState where
  sim_time : Int
  tasks : List Task
  runningTasks : Int
  busyServers : Int
  availableServers : List (String × Int)
  tasksGenerated : Nat
  queueHist : List Int
  bin_size : Nat
  last_size_change_time : Int
  next_cust_arrival_time : Int
  next_serv_end_time : Option Int
  next_serv_end : Option Server
  avgRespTimePerType : List (String × Int)
  tasksServicedPerType : List (String × Int)
  task_trace_files : List String
  logs : List (LogLevel × String)
  deriving DecidableEq, Repr

/-- Dictionary lookup on an association list (python `d[k]` read). -/
def lookupAssoc (l : List (String × Int)) (k : String) : Option Int :=
  (l.find? (fun p => p.1 == k)).map (fun p => p.2)

/-- Dictionary update `d[k] += delta` on an association list. -/
def bumpAssoc (l : List (String × Int)) (k : String) (delta : Int) : List (String × Int) :=
  l.map (fun p => if p.1 == k then (p.1, p.2 + delta) else p)

/-- `l[i] += x` on a python/numpy list; out-of-range indices leave the list
unchanged (the callers always clamp the index into range first). -/
def addAt (l : List Int) (i : Nat) (x : Int) : List Int :=
  l.set i (l.getD i 0 + x)

/-- The queue-size histogram update block, which appears verbatim in
`generate_n_enqueue_new_task`, in step 3 of `STOMP.run`, and as the final
flush in `STOMP.print_stats`:
`bin = int(queue_size / bin_size)` clamped to the last bin, then
`hist[bin] += sim_time - last_size_change_time` and
`last_size_change_time = sim_time`. -/
def histUpdate (queue_size : Nat) (st : SimState) : SimState :=
  let bin0 := queue_size / st.bin_size
  let bin := if bin0 ≥ st.queueHist.length then st.queueHist.length - 1 else bin0
  { st with
      queueHist := addAt st.queueHist bin (st.sim_time - st.last_size_change_time),
      last_size_change_time := st.sim_time }

/-- `STOMP.generate_n_enqueue_new_task`.  `choice` is the oracle for
`numpy.random.choice` over the configured task types.  Returns the python
boolean result together with the updated state.  When the queue already
holds `max_queue_size` tasks the function logs at info level and returns
`False` without touching the queue or any counter. -/
def generate_n_enqueue_new_task (choice : String) (max_queue_size : Nat)
    (st : SimState) : Bool × SimState :=
  if st.tasks.length = max_queue_size then
    (false, { st with
      logs := st.logs ++ [(LogLevel.info, "Problem with finding an empty queue slot!")] })
  else
    let st := histUpdate st.tasks.length st
    let st := { st with
      tasks := st.tasks ++ [⟨choice, st.sim_time⟩],
      tasksGenerated := st.tasksGenerated + 1 }
    let st :=
      if (st.avgRespTimePerType.find? (fun p => p.1 == choice)).isSome then st
      else { st with
        avgRespTimePerType := st.avgRespTimePerType ++ [(choice, 0)],
        tasksServicedPerType := st.tasksServicedPerType ++ [(choice, 0)],
        task_trace_files := st.task_trace_files ++ [choice] }
    (true, st)

/-- The `E_TASK_ARRIVAL` handler of `STOMP.run`: advance `sim_time` to
`next_cust_arrival_time`, try to enqueue, and only on success resample the
next arrival instant (`newArrivalSample` is the oracle for
`int(round(sim_time + numpy.random.exponential(...)))`). -/
def handleArrival (choice : String) (newArrivalSample : Int) (max_queue_size : Nat)
    (st : SimState) : SimState :=
  let st := { st with sim_time := st.next_cust_arrival_time }
  let r := generate_n_enqueue_new_task choice max_queue_size st
  if r.1 then { r.2 with next_cust_arrival_time := newArrivalSample } else r.2

/-- The three events of the simulator main loop. -/
inductive Event
  | pwrMgmt
  | taskArrival
  | serverFinishes
  deriving DecidableEq, Repr

/-- Step 1 of `STOMP.run` (event selection), translated condition for
condition from the `if`/`elif`/`else` chain. -/
def nextEventOf (power_mgmt_enabled : Bool) (max_tasks_simulated : Nat)
    (tasksGenerated : Nat) (next_cust_arrival_time : Int)
    (next_power_mgmt_time next_serv_end_time : Option Int) : Event :=
  if power_mgmt_enabled = true
      ∧ (leInf next_power_mgmt_time (some next_cust_arrival_time) = true
          ∨ tasksGenerated ≥ max_tasks_simulated)
      ∧ leInf next_power_mgmt_time next_serv_end_time = true then
    Event.pwrMgmt
  else if tasksGenerated < max_tasks_simulated
      ∧ (leInf (some next_cust_arrival_time) next_power_mgmt_time = true
          ∨ power_mgmt_enabled = false)
      ∧ (leInf (some next_cust_arrival_time) next_serv_end_time = true
          ∨ tasksGenerated ≥ max_tasks_simulated) then
    Event.taskArrival
  else
    Event.serverFinishes

/-- The scan at the end of `STOMP.release_server`: starting from
`next_serv_end_time = inf`, `next_serv_end = None`, fold over the server
pool keeping every busy server whose end instant is `<=` the best so far. -/
def scanNextServEnd (servers : List Server) : Option Int × Option Server :=
  servers.foldl
    (fun acc server =>
      if server.busy = true ∧ leInf (some server.curr_job_end_time) acc.1 = true then
        (some server.curr_job_end_time, some server)
      else acc)
    (none, none)

/-- A scheduling policy, as the event loop sees it: given `sim_time` and the
task queue, either bind a server (returning it) or decline, also returning
the (possibly mutated) task queue.  This is the shape of
`BaseSchedulingPolicy.assign_task_to_server`. -/
def Policy : Type :=
  Int → List Task → Option Server × List Task

/-- The state updates of step 3 of `STOMP.run` applied after a successful
pick of `server`: possibly lower the cached earliest server end, bump the
running/busy counters, decrement the available count of the server's type,
and update the queue-size histogram with `len(tasks) + 1`. -/
def bindServer (server : Server) (st : SimState) : SimState :=
  let st :=
    if ltInf (some server.curr_job_end_time) st.next_serv_end_time = true then
      { st with
          next_serv_end_time := some server.curr_job_end_time,
          next_serv_end := some server }
    else st
  let st := { st with
    runningTasks := st.runningTasks + 1,
    busyServers := st.busyServers + 1,
    availableServers := bumpAssoc st.availableServers server.stype (-1) }
  histUpdate (st.tasks.length + 1) st

/-- Step 3 of `STOMP.run` as implemented: a single call to
`sched_policy.assign_task_to_server(sim_time, tasks)` per loop iteration,
followed by the bookkeeping of `bindServer` when a server was returned. -/
def schedulingStep (policy : Policy) (st : SimState) : SimState :=
  let r := policy st.sim_time st.tasks
  let st := { st with tasks := r.2 }
  match r.1 with
  | none => st
  | some server => bindServer server st

/-- Modelled from the spec: step 3 as the specification words it — "invoke
`policy.pick` repeatedly until it returns none", performing the
`bindServer` bookkeeping after each successful pick.  `fuel` bounds the
number of picks so the function is total. -/
def schedulingLoopSpec (policy : Policy) : Nat → SimState → SimState
  | 0, st => st
  | fuel + 1, st =>
    let r := policy st.sim_time st.tasks
    let st := { st with tasks := r.2 }
    match r.1 with
    | none => st
    | some server => schedulingLoopSpec policy fuel (bindServer server st)

end Stomp

namespace MetaSim

/-- A node of a DAG (class `MetaTask` of `meta.py`).  `__init__` stores the
integer task id and initializes `rank = -1`, `processor = -1`, `ast = 0`,
`aft = 0`, `scheduled = 0`. -/
structure MetaTask where
  tid : Nat
  rank : Int
  processor : Int
  ast : Int
  aft : Int
  scheduled : Nat
  deriving DecidableEq, Repr

/-- `MetaTask.__init__ tid`. -/
def MetaTask.init (tid : Nat) : MetaTask :=
  ⟨tid, -1, -1, 0, 0, 0⟩

/-- `MetaTask.__eq__`: equality is comparison of the `tid` fields. -/
def metaTaskEq (a b : MetaTask) : Bool :=
  a.tid == b.tid

/-- `MetaTask.__hash__` is `hash(self.tid)`; CPython hashes a nonnegative
int to its value modulo the Mersenne prime `2^61 - 1`. -/
def metaTaskHash (a : MetaTask) : Nat :=
  a.tid % (2 ^ 61 - 1)

/-- `MetaTask.__lt__`: comparison of the `tid` fields. -/
def metaTaskLt (a b : MetaTask) : Bool :=
  decide (a.tid < b.tid)

/-- `MetaTask.__le__`: comparison of the `tid` fields. -/
def metaTaskLe (a b : MetaTask) : Bool :=
  decide (a.tid ≤ b.tid)

/-- A directed graph over `MetaTask` nodes, standing in for the `networkx`
digraph each DAG owns.  Since `networkx` identifies nodes through
`__hash__`/`__eq__` — that is, through `tid` (see `metaTaskEq`) — edges are
recorded as `(source tid, target tid)` pairs. -/
structure Graph where
  nodes : List MetaTask
  edges : List (Nat × Nat)
  deriving DecidableEq, Repr

/-- `graph.remove_node(node)`: drop the node with the given `tid` together
with all incident edges. -/
def Graph.removeNode (g : Graph) (tid : Nat) : Graph :=
  ⟨g.nodes.filter (fun n => n.tid != tid),
   g.edges.filter (fun e => e.1 != tid && e.2 != tid)⟩

/-- `graph.in_degree()` for a single node: the number of current edges
pointing at it. -/
def Graph.inDegree (g : Graph) (tid : Nat) : Nat :=
  (g.edges.filter (fun e => e.2 == tid)).length

/-- Class `DAG` of `meta.py`. -/
structure DAG where
  id : Nat
  graph : Graph
  comp : List (List String)
  arrival_time : Int
  resp_time : Int
  ready_time : Int
  dag_type : String
  deriving DecidableEq, Repr

/-- `DAG.__init__(dag_id, graph, comp, atime, dag_type)`: `resp_time`
starts at 0 and `ready_time` at the arrival time. -/
def DAG.init (dag_id : Nat) (graph : Graph) (comp : List (List String))
    (atime : Int) (dag_type : String) : DAG :=
  ⟨dag_id, graph, comp, atime, 0, atime, dag_type⟩

/-- A completion record drained from `stomp.tasks_completed`.  `meta.py`
reads exactly the fields `dag_id`, `tid`, `arrival_time` and
`task_lifetime`; the producer of these records is the scheduling-policy
side, which is not part of the two core sources, so the record shape
follows the spec's completion record
`(dag_id, tid, arrival_time_when_enqueued, actual_service_time)`. -/
structure CompletedTask where
  dag_id : Nat
  tid : Nat
  arrival_time : Int
  task_lifetime : Int
  deriving DecidableEq, Repr

/-- The mutable state of the `META` object: the `dag_id → DAG` mapping
(python dict, modelled as an insertion-ordered association list), the
active `dag_id` list, and the accumulated result entries `end_list`. -/
structure MetaState where
  dag_dict : List (Nat × DAG)
  dag_id_list : List Nat
  end_list : List (Nat × String × Int)
  deriving DecidableEq, Repr

/-- Dictionary read `dag_dict[k]` (also the membership test `k in dag_dict`
via `isSome`). -/
def lookupDag (d : List (Nat × DAG)) (k : Nat) : Option DAG :=
  (d.find? (fun p => p.1 == k)).map (fun p => p.2)

/-- Write-back of a mutated DAG under an existing key. -/
def updateDag (d : List (Nat × DAG)) (k : Nat) (v : DAG) : List (Nat × DAG) :=
  d.map (fun p => if p.1 == k then (k, v) else p)

/-- `del dag_dict[k]`. -/
def eraseDag (d : List (Nat × DAG)) (k : Nat) : List (Nat × DAG) :=
  d.filter (fun p => p.1 != k)

/-- `dag_dict[k] = v`: overwrite if present, else append. -/
def insertDag (d : List (Nat × DAG)) (k : Nat) (v : DAG) : List (Nat × DAG) :=
  if (d.find? (fun p => p.1 == k)).isSome then updateDag d k v else d ++ [(k, v)]

/-- The search `for node in graph.nodes(): if node.tid == completed.tid`. -/
def findNodeByTid (g : Graph) (tid : Nat) : Option MetaTask :=
  g.nodes.find? (fun n => n.tid == tid)

/-- Handling of one drained completion record by `META.run` (the body of
the `UPDATE BASED ON COMPLETED TASKS` loop): if the `dag_id` is active,
update `ready_time`/`resp_time` and remove the matching node when one
exists, then, if the graph became empty, append the result entry and
retire the DAG from both the dict and the id list. -/
def processCompletion (st : MetaState) (c : CompletedTask) : MetaState :=
  match lookupDag st.dag_dict c.dag_id with
  | none => st
  | some dag =>
    let dag :=
      match findNodeByTid dag.graph c.tid with
      | none => dag
      | some _ =>
        { dag with
            ready_time := c.arrival_time + c.task_lifetime,
            resp_time := (c.arrival_time + c.task_lifetime) - dag.arrival_time,
            graph := dag.graph.removeNode c.tid }
    if dag.graph.nodes.length = 0 then
      { dag_dict := eraseDag st.dag_dict c.dag_id,
        dag_id_list := st.dag_id_list.erase c.dag_id,
        end_list := st.end_list ++ [(c.dag_id, dag.dag_type, dag.resp_time)] }
    else
      { st with dag_dict := updateDag st.dag_dict c.dag_id dag }

/-- Draining the whole completion batch in FIFO order. -/
def drainCompletions (st : MetaState) (cs : List CompletedTask) : MetaState :=
  cs.foldl processCompletion st

/-- `self.server_types` as set in `META.__init__`. -/
def serverTypes : List String :=
  ["cpu_core", "gpu", "accel"]

/-- The column loop of `process_comp_time`: walk the row with a running
column counter, skip columns 0 and 1, and pair each later column with
`server_types[count - 2]`; an out-of-range server-type index is the python
`IndexError`, modelled as `none`. -/
def processCompTimeGo (stypes : List String) : List String → Nat → Option (List (String × String))
  | [], _ => some []
  | c :: rest, count =>
    if count ≤ 1 then processCompTimeGo stypes rest (count + 1)
    else
      match stypes.get? (count - 2) with
      | none => none
      | some t => (processCompTimeGo stypes rest (count + 1)).map (fun l => (t, c) :: l)

/-- `process_comp_time(dag, tid)` of `META.run`: pair the entries of row
`tid` of the compute matrix, from column 2 on, with the server types. -/
def process_comp_time (comp : List (List String)) (tid : Nat) : Option (List (String × String)) :=
  match comp.get? tid with
  | none => none
  | some row => processCompTimeGo serverTypes row 0

/-- A ready-task descriptor as pushed into the shared queue:
`[(atime, task, dag_id, tid), stimes]`. -/
structure TaskEntry where
  atime : Int
  base : String
  dag_id : Nat
  tid : Nat
  stimes : List (String × String)
  deriving DecidableEq, Repr

/-- The `READY TASK PRIORTIZATION AND SUBMISSION` scan of `META.run` over
the node list of one DAG: each node with in-degree 0 and `scheduled == 0`
yields one descriptor — effective arrival time is the DAG's arrival time
for `tid == 0` and its current ready time otherwise, the base cost is
`comp[tid][0]`, and the cost table comes from `process_comp_time` — and
is marked `scheduled = 1`.  Returns the emitted descriptors together with
the updated node list; `none` models an `IndexError` on the matrix. -/
def emitGo (dag : DAG) : List MetaTask → Option (List TaskEntry × List MetaTask)
  | [] => some ([], [])
  | n :: rest =>
    if dag.graph.inDegree n.tid = 0 ∧ n.scheduled = 0 then
      match (dag.comp.get? n.tid).bind (fun row => row.get? 0), process_comp_time dag.comp n.tid with
      | some base, some stimes =>
        let atime := if n.tid = 0 then dag.arrival_time else dag.ready_time
        (emitGo dag rest).map
          (fun p => (⟨atime, base, dag.id, n.tid, stimes⟩ :: p.1, { n with scheduled := 1 } :: p.2))
      | _, _ => none
    else
      (emitGo dag rest).map (fun p => (p.1, n :: p.2))

/-- The per-DAG ready scan, rebuilding the DAG with the updated nodes. -/
def emitReadyTasks (dag : DAG) : Option (List TaskEntry × DAG) :=
  (emitGo dag dag.graph.nodes).map
    (fun p => (p.1, { dag with graph := ⟨p.2, dag.graph.edges⟩ }))

/-- The sort key of the ready queue: `tr_entry[0][0]`, the effective
arrival time, ascending. -/
def entryLe (a b : TaskEntry) : Bool :=
  decide (a.atime ≤ b.atime)

/-- The ordering property of the shared ready queue: pairwise ascending
effective arrival times. -/
def QueueSorted (q : List TaskEntry) : Prop :=
  q.Pairwise (fun a b => entryLe a b = true)

instance : DecidablePred QueueSorted := fun q =>
  List.instDecidablePairwise q

/-- The batch append of `META.run` under the ready-queue lock: pop each
pending descriptor, append it to the shared queue and re-sort the queue by
effective arrival time ascending with python's stable `list.sort`. -/
def metaBatchAppend (queue temp : List TaskEntry) : List TaskEntry :=
  temp.foldl (fun q e => (q ++ [e]).mergeSort entryLe) queue

/-- The refresh of `stomp.next_cust_arrival_time` after the batch append:
if the queue is nonempty and the cached value differs from the head's
effective arrival time, overwrite it with the head's. -/
def refreshNextArrival (queue : List TaskEntry) (next_cust_arrival_time : Int) : Int :=
  match queue with
  | [] => next_cust_arrival_time
  | e :: _ => if next_cust_arrival_time ≠ e.atime then e.atime else next_cust_arrival_time

/-- One line of the DAG arrival trace, already split into
`(arrival_time, dag_id, dag_type)`. -/
def TraceLine : Type :=
  Int × Nat × String

/-- Admission of one trace line by the loader of `META.run`: scale the
arrival time, build the `DAG` from the graph and matrix files (passed as
oracles for the file system), register it in the dict and append its id to
the active list. -/
def loadTraceLine (graphOf : String → Graph) (compOf : String → List (List String))
    (arrival_time_scale : Int) (st : MetaState) (line : TraceLine) : MetaState :=
  let atime := line.1 * arrival_time_scale
  let dag := DAG.init line.2.1 (graphOf line.2.2) (compOf line.2.2) atime line.2.2
  { st with
      dag_dict := insertDag st.dag_dict line.2.1 dag,
      dag_id_list := st.dag_id_list ++ [line.2.1] }

/-- The whole loader loop, starting from the empty registry. -/
def loadTrace (graphOf : String → Graph) (compOf : String → List (List String))
    (arrival_time_scale : Int) (lines : List TraceLine) : MetaState :=
  lines.foldl (loadTraceLine graphOf compOf arrival_time_scale) ⟨[], [], []⟩

/-- The sort key of the final result list: `end_entry[0]`, the DAG id. -/
def endEntryLe (a b : Nat × String × Int) : Bool :=
  decide (a.1 ≤ b.1)

/-- `end_list.sort(key=lambda e: e[0])` before the output loop. -/
def outputRows (end_list : List (Nat × String × Int)) : List (Nat × String × Int) :=
  end_list.mergeSort endEntryLe

/-- The lines written to `out.csv`: the header followed by one rendered row
per result entry, in sorted order. -/
def writeOutCsv (end_list : List (Nat × String × Int)) : List String :=
  "DAG ID,DAG Type,Response Time" ::
    (outputRows end_list).map (fun e => toString e.1 ++ "," ++ e.2.1 ++ "," ++ toString e.2.2)

end MetaSim

/-! ### Concrete instances used as test vectors for the theorems below -/

/-- A server with the smallest id among the two tied demo servers. -/
def srvA : Stomp.Server :=
  ⟨0, "cpu_core", true, 5⟩

/-- A second busy server tied with `srvA` on `curr_job_end_time`. -/
def srvB : Stomp.Server :=
  ⟨1, "cpu_core", true, 5⟩

/-- The server bound by the demo policy below. -/
def demoBoundServer : Stomp.Server :=
  ⟨2, "cpu_core", true, 100⟩

/-- An incumbent cached earliest-ending server: id 1, busy, `end_exact` 10. -/
def srvC : Stomp.Server :=
  ⟨1, "cpu_core", true, 10⟩

/-- A newly bound server tying `srvC` on `end_exact` but with a higher id. -/
def srvD : Stomp.Server :=
  ⟨5, "cpu_core", true, 10⟩

/-- A deterministic demo policy: while tasks remain, bind `demoBoundServer`
and pop the queue head; decline on an empty queue. -/
def greedyDemoPolicy : Stomp.Policy :=
  fun _ tasks =>
    match tasks with
    | [] => (none, [])
    | _ :: rest => (some demoBoundServer, rest)

/-- A simulator state with two queued tasks and one available server type. -/
def demoSimState : Stomp.SimState :=
  { sim_time := 7, tasks := [⟨"fft", 3⟩, ⟨"fft", 5⟩], runningTasks := 0,
    busyServers := 0, availableServers := [("cpu_core", 2)], tasksGenerated := 2,
    queueHist := List.replicate 10 0, bin_size := 1, last_size_change_time := 0,
    next_cust_arrival_time := 11, next_serv_end_time := none, next_serv_end := none,
    avgRespTimePerType := [("fft", 0)], tasksServicedPerType := [("fft", 0)],
    task_trace_files := ["fft"], logs := [] }

/-- A simulator state whose cached earliest server end is `(srvC, 10)`. -/
def demoTieState : Stomp.SimState :=
  { demoSimState with next_serv_end_time := some 10, next_serv_end := some srvC }

/-- A simulator state whose task queue is full for `max_queue_size = 1`. -/
def demoFullState : Stomp.SimState :=
  { sim_time := 4, tasks := [⟨"fft", 2⟩], runningTasks := 1,
    busyServers := 1, availableServers := [("cpu_core", 1)], tasksGenerated := 1,
    queueHist := List.replicate 10 0, bin_size := 1, last_size_change_time := 0,
    next_cust_arrival_time := 9, next_serv_end_time := some 12,
    next_serv_end := some ⟨0, "cpu_core", true, 12⟩,
    avgRespTimePerType := [("fft", 0)], tasksServicedPerType := [("fft", 0)],
    task_trace_files := ["fft"], logs := [] }

/-- The initial `STOMP` state: the `__init__` statistics values followed by
the initializations at the top of `STOMP.run` (`next_cust_arrival_time =
sim_time`, the other event instants infinite). -/
def initialSimState (availableServers : List (String × Int)) : Stomp.SimState :=
  { sim_time := 0, tasks := [], runningTasks := 0, busyServers := 0,
    availableServers := availableServers, tasksGenerated := 0,
    queueHist := List.replicate 10 0, bin_size := 1, last_size_change_time := 0,
    next_cust_arrival_time := 0, next_serv_end_time := none, next_serv_end := none,
    avgRespTimePerType := [], tasksServicedPerType := [], task_trace_files := [],
    logs := [] }

/-- A run of queue-size histogram updates: each update site of `stomp.py`
first advances `sim_time` to the instant of the event being handled and
then executes the shared update block, so a run is summarized by the list
of `(queue_size, sim_time)` pairs seen at the update sites. -/
def histRun (evs : List (Nat × Int)) (st : Stomp.SimState) : Stomp.SimState :=
  evs.foldl (fun s e => Stomp.histUpdate e.1 { s with sim_time := e.2 }) st

/-- A single root node, already emitted into the ready queue. -/
def demoNode0 : MetaSim.MetaTask :=
  ⟨0, -1, -1, 0, 0, 1⟩

/-- A one-node dependency graph. -/
def demoGraph1 : MetaSim.Graph :=
  ⟨[demoNode0], []⟩

/-- A single-task DAG with id 7, arrived at time 100. -/
def demoDag : MetaSim.DAG :=
  ⟨7, demoGraph1, [["0", "10", "10", "12", "14"]], 100, 0, 100, "A"⟩

/-- A manager state holding only `demoDag`. -/
def demoMetaState : MetaSim.MetaState :=
  ⟨[(7, demoDag)], [7], []⟩

/-- The completion record of `demoDag`'s only task. -/
def demoCompletion : MetaSim.CompletedTask :=
  ⟨7, 0, 100, 10⟩

/-- A two-node chain DAG 0 → 1 used for the ready-emission checks. -/
def demoChainDag : MetaSim.DAG :=
  ⟨9, ⟨[MetaSim.MetaTask.init 0, MetaSim.MetaTask.init 1], [(0, 1)]⟩,
   [["0", "10", "10", "12", "14"], ["1", "20", "20", "22", "24"]], 50, 0, 50, "B"⟩

/-- `demoChainDag` after its root node has been emitted and marked. -/
def demoChainDagMarked : MetaSim.DAG :=
  ⟨9, ⟨[⟨0, -1, -1, 0, 0, 1⟩, MetaSim.MetaTask.init 1], [(0, 1)]⟩,
   [["0", "10", "10", "12", "14"], ["1", "20", "20", "22", "24"]], 50, 0, 50, "B"⟩

/-- The ready descriptor emitted for `demoChainDag`'s root node. -/
def demoChainEntry : MetaSim.TaskEntry :=
  ⟨50, "0", 9, 0, [("cpu_core", "10"), ("gpu", "12"), ("accel", "14")]⟩

/-- Ready-queue descriptor with effective arrival time 3 (first). -/
def demoEntryA : MetaSim.TaskEntry :=
  ⟨3, "10", 0, 0, []⟩

/-- Ready-queue descriptor tied with `demoEntryA` at time 3 (second). -/
def demoEntryB : MetaSim.TaskEntry :=
  ⟨3, "20", 1, 0, []⟩

/-- Ready-queue descriptor with the strictly smallest arrival time 1. -/
def demoEntryC : MetaSim.TaskEntry :=
  ⟨1, "5", 2, 0, []⟩

/-! ### Helper lemmas -/

theorem leInf_total (a b : Option Int) :
    Stomp.leInf a b = true ∨ Stomp.leInf b a = true := by
  rcases a with _ | a <;> rcases b with _ | b <;> simp [Stomp.leInf] <;> omega

theorem leInf_trans {a b c : Option Int} (h1 : Stomp.leInf a b = true)
    (h2 : Stomp.leInf b c = true) : Stomp.leInf a c = true := by
  rcases a with _ | a <;> rcases b with _ | b <;> rcases c with _ | c <;>
    simp [Stomp.leInf] at * <;> omega

theorem leInf_of_not_leInf {a b : Option Int} (h : Stomp.leInf a b = false) :
    Stomp.leInf b a = true := by
  rcases a with _ | a <;> rcases b with _ | b <;> simp [Stomp.leInf] at * <;> omega

theorem ltInf_of_not_leInf {a b : Option Int} (h : Stomp.leInf a b = false) :
    Stomp.ltInf b a = true := by
  rcases a with _ | a <;> rcases b with _ | b <;> simp [Stomp.leInf, Stomp.ltInf] at * <;> omega

/-! ### C10 -/

/-- C10: equality, hashing and ordering of `MetaTask` nodes are determined
solely by `tid` — `__eq__` tests `tid` equality, `__hash__` agrees on
agreeing `tid`s, `__lt__`/`__le__` compare `tid`s — and consequently the
completion handler's node search and node removal depend only on the `tid`
fields: both commute with any node transformation that preserves `tid`
(arbitrary changes to `rank`, `processor`, `ast`, `aft`, `scheduled`). -/
theorem metaTask_identity_determined_by_tid :
    (∀ a b : MetaSim.MetaTask, MetaSim.metaTaskEq a b = true ↔ a.tid = b.tid)
    ∧ (∀ a b : MetaSim.MetaTask, a.tid = b.tid → MetaSim.metaTaskHash a = MetaSim.metaTaskHash b)
    ∧ (∀ a b : MetaSim.MetaTask, MetaSim.metaTaskLt a b = decide (a.tid < b.tid))
    ∧ (∀ a b : MetaSim.MetaTask, MetaSim.metaTaskLe a b = decide (a.tid ≤ b.tid))
    ∧ (∀ (nodes : List MetaSim.MetaTask) (edges : List (Nat × Nat))
        (f : MetaSim.MetaTask → MetaSim.MetaTask), (∀ m, (f m).tid = m.tid) →
        ∀ t : Nat,
          MetaSim.findNodeByTid ⟨nodes.map f, edges⟩ t
              = (MetaSim.findNodeByTid ⟨nodes, edges⟩ t).map f
          ∧ (MetaSim.Graph.removeNode ⟨nodes.map f, edges⟩ t).nodes
              = ((MetaSim.Graph.removeNode ⟨nodes, edges⟩ t).nodes).map f) := by
  refine ⟨?_, ?_, ?_, ?_, ?_⟩
  · intro a b
    simp [MetaSim.metaTaskEq]
  · intro a b h
    simp [MetaSim.metaTaskHash, h]
  · intro a b
    rfl
  · intro a b
    rfl
  · intro nodes edges f hf t
    constructor
    · induction nodes with
      | nil => rfl
      | cons m ms ih =>
        simp only [MetaSim.findNodeByTid, List.map_cons, List.find?_cons] at *
        rcases h : (m.tid == t) with _ | _
        · have h' : ((f m).tid == t) = false := by rw [hf m]; exact h
          rw [h']
          simpa using ih
        · have h' : ((f m).tid == t) = true := by rw [hf m]; exact h
          rw [h']
          simp
    · induction nodes with
      | nil => rfl
      | cons m ms ih =>
        simp only [MetaSim.Graph.removeNode, List.map_cons, List.filter_cons] at *
        rcases h : (m.tid != t) with _ | _
        · have h' : ((f m).tid != t) = false := by rw [hf m]; exact h
          rw [h']
          simpa using ih
        · have h' : ((f m).tid != t) = true := by rw [hf m]; exact h
          rw [h']
          simpa using ih

theorem addAt_length (l : List Int) (i : Nat) (x : Int) :
    (Stomp.addAt l i x).length = l.length := by
  simp [Stomp.addAt]

theorem addAt_sum (l : List Int) (i : Nat) (x : Int) (h : i < l.length) :
    (Stomp.addAt l i x).sum = l.sum + x := by
  induction l generalizing i with
  | nil => simp at h
  | cons a as ih =>
    cases i with
    | zero =>
      simp [Stomp.addAt]
      ring
    | succ j =>
      have hj : j < as.length := by simpa using h
      have := ih j hj
      simp [Stomp.addAt, List.set] at *
      rw [this]
      ring

theorem histUpdate_sum (qs : Nat) (st : Stomp.SimState) (h : st.queueHist.length = 10) :
    (Stomp.histUpdate qs st).queueHist.sum
        = st.queueHist.sum + (st.sim_time - st.last_size_change_time)
    ∧ (Stomp.histUpdate qs st).queueHist.length = 10
    ∧ (Stomp.histUpdate qs st).last_size_change_time = st.sim_time
    ∧ (Stomp.histUpdate qs st).sim_time = st.sim_time := by
  have hbin : (if qs / st.bin_size ≥ st.queueHist.length then st.queueHist.length - 1
      else qs / st.bin_size) < st.queueHist.length := by
    rw [h]
    split <;> omega
  refine ⟨?_, ?_, rfl, rfl⟩
  · exact addAt_sum _ _ _ hbin
  · rw [Stomp.histUpdate]
    simpa [addAt_length] using h

theorem histRun_invariant (evs : List (Nat × Int)) :
    ∀ st : Stomp.SimState, st.queueHist.length = 10 →
      st.queueHist.sum = st.last_size_change_time →
      (histRun evs st).queueHist.length = 10
      ∧ (histRun evs st).queueHist.sum = (histRun evs st).last_size_change_time := by
  induction evs with
  | nil => exact fun st h1 h2 => ⟨h1, h2⟩
  | cons e rest ih =>
    intro st h1 h2
    have hstep := histUpdate_sum e.1 { st with sim_time := e.2 } h1
    have : (Stomp.histUpdate e.1 { st with sim_time := e.2 }).queueHist.sum
        = (Stomp.histUpdate e.1 { st with sim_time := e.2 }).last_size_change_time := by
      rw [hstep.1, hstep.2.2.1]
      simp [h2]
    exact ih _ hstep.2.1 this

/-- Concrete check of C10: the theorem applied to two nodes sharing
`tid = 3` but differing in every other field. -/
theorem metaTask_identity_determined_by_tid_witness :
    MetaSim.metaTaskEq (MetaSim.MetaTask.init 3) ⟨3, 5, 7, 1, 2, 9⟩ = true
    ∧ MetaSim.metaTaskHash (MetaSim.MetaTask.init 3) = MetaSim.metaTaskHash ⟨3, 5, 7, 1, 2, 9⟩ :=
  ⟨(metaTask_identity_determined_by_tid.1 (MetaSim.MetaTask.init 3) ⟨3, 5, 7, 1, 2, 9⟩).mpr rfl,
   metaTask_identity_determined_by_tid.2.1 (MetaSim.MetaTask.init 3) ⟨3, 5, 7, 1, 2, 9⟩ rfl⟩

/-! ### C9 -/

/-- C9: every histogram update adds `sim_time - last_size_change_time` to
bin `min(queue_size / bin_size, 9)` and then moves
`last_size_change_time` to `sim_time`; and for any run of updates starting
from the initial state, the un-normalized bins after the final flush of
`print_stats` sum exactly to `sim_time`. -/
theorem histogram_time_accounting :
    (∀ (qs : Nat) (st : Stomp.SimState), st.queueHist.length = 10 →
      Stomp.histUpdate qs st = { st with
        queueHist := Stomp.addAt st.queueHist (min (qs / st.bin_size) 9)
          (st.sim_time - st.last_size_change_time),
        last_size_change_time := st.sim_time })
    ∧ (∀ (avail : List (String × Int)) (evs : List (Nat × Int)) (finalQs : Nat),
      (Stomp.histUpdate finalQs (histRun evs (initialSimState avail))).queueHist.sum
        = (histRun evs (initialSimState avail)).sim_time) := by
  constructor
  · intro qs st h
    rw [Stomp.histUpdate]
    have : (if qs / st.bin_size ≥ st.queueHist.length then st.queueHist.length - 1
        else qs / st.bin_size) = min (qs / st.bin_size) 9 := by
      rw [h]
      split <;> omega
    rw [this]
  · intro avail evs finalQs
    have hinit1 : (initialSimState avail).queueHist.length = 10 := by
      simp [initialSimState]
    have hinit2 : (initialSimState avail).queueHist.sum
        = (initialSimState avail).last_size_change_time := by
      simp [initialSimState]
    have hinv := histRun_invariant evs (initialSimState avail) hinit1 hinit2
    have hflush := histUpdate_sum finalQs (histRun evs (initialSimState avail)) hinv.1
    rw [hflush.1, hinv.2]
    ring

/-- Concrete check of C9 at a two-event run with a final flush. -/
theorem histogram_time_accounting_witness :
    Stomp.histUpdate 3 demoFullState = { demoFullState with
      queueHist := Stomp.addAt demoFullState.queueHist (min (3 / demoFullState.bin_size) 9)
        (demoFullState.sim_time - demoFullState.last_size_change_time),
      last_size_change_time := demoFullState.sim_time }
    ∧ (Stomp.histUpdate 2 (histRun [(0, 3), (4, 7)] (initialSimState [("cpu_core", 1)]))).queueHist.sum
        = (histRun [(0, 3), (4, 7)] (initialSimState [("cpu_core", 1)])).sim_time :=
  ⟨histogram_time_accounting.1 3 demoFullState (by rfl),
   histogram_time_accounting.2 [("cpu_core", 1)] [(0, 3), (4, 7)] 2⟩

/-! ### C8 -/

/-- C8: when a task arrival fires with the queue already holding
`max_queue_size` descriptors, the failure is soft — an info-level message
is logged, no task is enqueued, `Tasks Generated` is unchanged, the next
arrival instant is not resampled, the histogram is untouched, and the
handler returns normally with `sim_time` advanced to the arrival
instant. -/
theorem arrival_capacity_soft_failure (choice : String) (newArr : Int) (mqs : Nat)
    (st : Stomp.SimState) (hfull : st.tasks.length = mqs) :
    (Stomp.handleArrival choice newArr mqs st).tasks = st.tasks
    ∧ (Stomp.handleArrival choice newArr mqs st).tasksGenerated = st.tasksGenerated
    ∧ (Stomp.handleArrival choice newArr mqs st).next_cust_arrival_time
        = st.next_cust_arrival_time
    ∧ (Stomp.handleArrival choice newArr mqs st).logs
        = st.logs ++ [(Stomp.LogLevel.info, "Problem with finding an empty queue slot!")]
    ∧ (Stomp.handleArrival choice newArr mqs st).sim_time = st.next_cust_arrival_time
    ∧ (Stomp.handleArrival choice newArr mqs st).queueHist = st.queueHist := by
  simp [Stomp.handleArrival, Stomp.generate_n_enqueue_new_task, hfull]

/-- Concrete check of C8: a full queue of one slot. -/
theorem arrival_capacity_soft_failure_witness :
    (Stomp.handleArrival "fft" 42 1 demoFullState).tasks = demoFullState.tasks
    ∧ (Stomp.handleArrival "fft" 42 1 demoFullState).tasksGenerated
        = demoFullState.tasksGenerated
    ∧ (Stomp.handleArrival "fft" 42 1 demoFullState).next_cust_arrival_time
        = demoFullState.next_cust_arrival_time
    ∧ (Stomp.handleArrival "fft" 42 1 demoFullState).logs
        = demoFullState.logs ++ [(Stomp.LogLevel.info, "Problem with finding an empty queue slot!")]
    ∧ (Stomp.handleArrival "fft" 42 1 demoFullState).sim_time
        = demoFullState.next_cust_arrival_time
    ∧ (Stomp.handleArrival "fft" 42 1 demoFullState).queueHist = demoFullState.queueHist :=
  arrival_capacity_soft_failure "fft" 42 1 demoFullState rfl

/-! ### C3 -/

/-- C3: the event selection chain picks `PWR_MGMT` exactly when power
management is enabled and its instant is no later than every other enabled
instant, otherwise `ARRIVAL` exactly when tasks are still being admitted
and the arrival instant is no later than every other enabled instant, and
otherwise `SERVER_FINISH`, in which case `next_serv_end_time` is a minimum
of the enabled instants; at equal instants the `if`/`elif`/`else` order
realizes the priority `PWR_MGMT` before `ARRIVAL` before
`SERVER_FINISH`. -/
theorem event_selection_total_order (p : Bool) (maxT gen : Nat) (arr : Int)
    (pwr serv : Option Int) :
    (Stomp.nextEventOf p maxT gen arr pwr serv = Stomp.Event.pwrMgmt ↔
      p = true ∧ (gen < maxT → Stomp.leInf pwr (some arr) = true)
        ∧ Stomp.leInf pwr serv = true)
    ∧ (Stomp.nextEventOf p maxT gen arr pwr serv = Stomp.Event.taskArrival ↔
      ¬(p = true ∧ (gen < maxT → Stomp.leInf pwr (some arr) = true)
          ∧ Stomp.leInf pwr serv = true)
        ∧ gen < maxT ∧ (p = true → Stomp.leInf (some arr) pwr = true)
        ∧ Stomp.leInf (some arr) serv = true)
    ∧ (Stomp.nextEventOf p maxT gen arr pwr serv = Stomp.Event.serverFinishes →
      (p = true → Stomp.leInf serv pwr = true)
        ∧ (gen < maxT → Stomp.leInf serv (some arr) = true)) := by
  cases p <;> rcases pwr with _ | pv <;> rcases serv with _ | sv <;>
    simp only [Stomp.nextEventOf, Stomp.leInf] <;>
    split_ifs <;>
    simp_all <;>
    omega

/-- Concrete check of C3: with all three instants equal and every event
enabled, `PWR_MGMT` is selected. -/
theorem event_selection_total_order_witness :
    Stomp.nextEventOf true 10 4 5 (some 5) (some 5) = Stomp.Event.pwrMgmt :=
  (event_selection_total_order true 10 4 5 (some 5) (some 5)).1.mpr
    ⟨rfl, fun _ => by decide, by decide⟩

/-! ### C4 -/

theorem scanNextServEnd_append (l : List Stomp.Server) (x : Stomp.Server) :
    Stomp.scanNextServEnd (l ++ [x])
      = (if x.busy = true
            ∧ Stomp.leInf (some x.curr_job_end_time) (Stomp.scanNextServEnd l).1 = true then
          (some x.curr_job_end_time, some x)
        else Stomp.scanNextServEnd l) := by
  simp [Stomp.scanNextServEnd, List.foldl_append]

/-- Full characterization of the `release_server` scan: when it selects a
server, that server is busy with the minimal end instant, and — because
the comparison is `<=` — it is the **last** server in pool order among
those attaining the minimum: every busy server after it ends strictly
later. -/
theorem scanNextServEnd_spec (servers : List Stomp.Server) :
    (∀ t, Stomp.scanNextServEnd servers = (t, none) →
      t = none ∧ ∀ s' ∈ servers, s'.busy = false)
    ∧ (∀ t s, Stomp.scanNextServEnd servers = (t, some s) →
        s.busy = true ∧ t = some s.curr_job_end_time
        ∧ (∀ s' ∈ servers, s'.busy = true →
            Stomp.leInf t (some s'.curr_job_end_time) = true)
        ∧ ∃ l1 l2, servers = l1 ++ s :: l2
            ∧ ∀ s' ∈ l2, s'.busy = true →
                Stomp.ltInf t (some s'.curr_job_end_time) = true) := by
  induction servers using List.reverseRecOn with
  | nil =>
    constructor
    · intro t h
      simp [Stomp.scanNextServEnd] at h
      simp [h]
    · intro t s h
      simp [Stomp.scanNextServEnd] at h
  | append_singleton l x ih =>
    rw [scanNextServEnd_append]
    by_cases hc : x.busy = true
        ∧ Stomp.leInf (some x.curr_job_end_time) (Stomp.scanNextServEnd l).1 = true
    · rw [if_pos hc]
      constructor
      · intro t h
        simp at h
      · intro t s h
        obtain ⟨ht, hs⟩ : some x.curr_job_end_time = t ∧ x = s := by
          constructor <;> injection h <;> simp_all
        subst hs
        subst ht
        refine ⟨hc.1, rfl, ?_, l, [], rfl, by simp⟩
        intro s' hmem hbusy
        rcases List.mem_append.mp hmem with hl | hx
        · rcases hacc : Stomp.scanNextServEnd l with ⟨t0, o0⟩
          cases o0 with
          | none =>
            have := (ih.1 t0 hacc).2 s' hl
            rw [this] at hbusy
            exact absurd hbusy (by simp)
          | some s0 =>
            have hmin := (ih.2 t0 s0 hacc).2.2.1 s' hl hbusy
            have hle : Stomp.leInf (some x.curr_job_end_time) t0 = true := by
              have := hc.2
              rw [hacc] at this
              exact this
            exact leInf_trans hle hmin
        · have : s' = x := by simpa using hx
          subst this
          simp [Stomp.leInf]
    · rw [if_neg hc]
      constructor
      · intro t h
        have hbase := ih.1 t h
        refine ⟨hbase.1, ?_⟩
        intro s' hmem
        rcases List.mem_append.mp hmem with hl | hx
        · exact hbase.2 s' hl
        · have hx' : s' = x := by simpa using hx
          subst hx'
          by_contra hb
          have hb' : s'.busy = true := by
            cases hbusy : s'.busy
            · exact absurd hbusy hb
            · rfl
          apply hc
          refine ⟨hb', ?_⟩
          rw [h, hbase.1]
          simp [Stomp.leInf]
      · intro t s h
        have hbase := ih.2 t s h
        obtain ⟨l1, l2, hdec, hl2⟩ := hbase.2.2.2
        refine ⟨hbase.1, hbase.2.1, ?_, l1, l2 ++ [x], by rw [hdec]; simp, ?_⟩
        · intro s' hmem hbusy
          rcases List.mem_append.mp hmem with hl | hx
          · exact hbase.2.2.1 s' hl hbusy
          · have hx' : s' = x := by simpa using hx
            subst hx'
            have hle : Stomp.leInf (some s'.curr_job_end_time) t = false := by
              by_contra hne
              have : Stomp.leInf (some s'.curr_job_end_time) t = true := by
                cases hv : Stomp.leInf (some s'.curr_job_end_time) t
                · exact absurd hv hne
                · rfl
              exact hc ⟨hbusy, by rw [h]; exact this⟩
            exact leInf_of_not_leInf hle
        · intro s' hmem hbusy
          rcases List.mem_append.mp hmem with hl | hx
          · exact hl2 s' hl hbusy
          · have hx' : s' = x := by simpa using hx
            subst hx'
            have hle : Stomp.leInf (some s'.curr_job_end_time) t = false := by
              by_contra hne
              have : Stomp.leInf (some s'.curr_job_end_time) t = true := by
                cases hv : Stomp.leInf (some s'.curr_job_end_time) t
                · exact absurd hv hne
                · rfl
              exact hc ⟨hbusy, by rw [h]; exact this⟩
            exact ltInf_of_not_leInf hle

/-- C4 counterexample: two busy servers tied on `curr_job_end_time`; the
`release_server` scan (whose comparison is `<=`) selects `srvB`, the one
with the **higher** id, refuting "ties resolve by lowest server id". -/
theorem server_tie_break_counterexample :
    (Stomp.scanNextServEnd [srvA, srvB]).2 = some srvB
    ∧ srvA.busy = true ∧ srvB.busy = true
    ∧ srvA.curr_job_end_time = srvB.curr_job_end_time
    ∧ srvA.id < srvB.id := by
  decide

/-- C4 amended: there is no lowest-id tie-break for the earliest-ending
server; the two update paths behave differently.  The rescan at the end of
`release_server` (comparison `<=`) selects, among the busy servers
attaining the smallest `end_exact`, the one **latest in pool order** — the
one with the **highest** id when ids increase along the pool as
`init_servers` assigns them — while the bind-time update of step 3
(comparison `<`) keeps the previously cached server whenever the newly
bound server merely ties the cached `next_serv_end_time`. -/
theorem server_finish_tie_break_paths :
    (∀ (servers : List Stomp.Server) (t : Option Int) (s : Stomp.Server),
        Stomp.scanNextServEnd servers = (t, some s) →
        servers.Pairwise (fun a b => a.id < b.id) →
        s.busy = true
        ∧ t = some s.curr_job_end_time
        ∧ (∀ s' ∈ servers, s'.busy = true → s.curr_job_end_time ≤ s'.curr_job_end_time)
        ∧ (∀ s' ∈ servers, s'.busy = true →
            s'.curr_job_end_time = s.curr_job_end_time → s'.id ≤ s.id))
    ∧ (∀ (server : Stomp.Server) (st : Stomp.SimState),
        st.next_serv_end_time = some server.curr_job_end_time →
        (Stomp.bindServer server st).next_serv_end = st.next_serv_end
        ∧ (Stomp.bindServer server st).next_serv_end_time = st.next_serv_end_time) := by
  constructor
  · intro servers t s hscan hids
    have hspec := (scanNextServEnd_spec servers).2 t s hscan
    obtain ⟨hbusy, ht, hmin, l1, l2, hdec, hl2⟩ := hspec
    refine ⟨hbusy, ht, ?_, ?_⟩
    · intro s' hmem hb
      have := hmin s' hmem hb
      rw [ht] at this
      simpa [Stomp.leInf] using this
    · intro s' hmem hb heq
      rw [hdec] at hmem
      rcases List.mem_append.mp hmem with h1 | h2
      · have : s'.id < s.id := by
          rw [hdec] at hids
          have := List.pairwise_append.mp hids
          exact this.2.2 s' h1 s (by simp)
        omega
      · rcases List.mem_cons.mp h2 with he | hin
        · rw [he]
        · have := hl2 s' hin hb
          rw [ht] at this
          simp [Stomp.ltInf] at this
          omega
  · intro server st h
    have hlt : Stomp.ltInf (some server.curr_job_end_time) st.next_serv_end_time = false := by
      rw [h]
      simp [Stomp.ltInf]
    constructor <;> simp [Stomp.bindServer, Stomp.histUpdate, hlt]

/-! ### C1 -/

theorem lookupAssoc_bumpAssoc (l : List (String × Int)) (k : String) (d : Int) :
    Stomp.lookupAssoc (Stomp.bumpAssoc l k d) k
      = (Stomp.lookupAssoc l k).map (fun v => v + d) := by
  induction l with
  | nil => rfl
  | cons p ps ih =>
    by_cases hk : p.1 = k
    · have hb : (p.1 == k) = true := by simp [hk]
      have hcons : Stomp.bumpAssoc (p :: ps) k d = (p.1, p.2 + d) :: Stomp.bumpAssoc ps k d := by
        simp [Stomp.bumpAssoc, hb, hk]
      rw [hcons]
      rw [Stomp.lookupAssoc, Stomp.lookupAssoc,
        List.find?_cons_of_pos _ (by simpa using hb),
        List.find?_cons_of_pos _ (by simpa using hb)]
      rfl
    · have hb : (p.1 == k) = false := by simp [hk]
      have hcons : Stomp.bumpAssoc (p :: ps) k d = p :: Stomp.bumpAssoc ps k d := by
        simp [Stomp.bumpAssoc, hb, hk]
      rw [hcons]
      rw [Stomp.lookupAssoc, Stomp.lookupAssoc,
        List.find?_cons_of_neg _ (by simpa using hb),
        List.find?_cons_of_neg _ (by simpa using hb)]
      exact ih

/-- C1 counterexample: the scheduling step of `STOMP.run` calls
`assign_task_to_server` exactly once per main-loop iteration, not
"repeatedly until it returns none".  With two queued tasks and a policy
that binds a server whenever the queue is nonempty, the implemented step
schedules one task while the spec-modelled pick-until-none loop schedules
two, so the two disagree. -/
theorem scheduling_single_pick_counterexample :
    ¬(Stomp.schedulingStep greedyDemoPolicy demoSimState
        = Stomp.schedulingLoopSpec greedyDemoPolicy
            (demoSimState.tasks.length + 1) demoSimState)
    ∧ (Stomp.schedulingStep greedyDemoPolicy demoSimState).runningTasks = 1
    ∧ (Stomp.schedulingLoopSpec greedyDemoPolicy
        (demoSimState.tasks.length + 1) demoSimState).runningTasks = 2 := by
  decide

/-- C1 amended: step 3 of each main-loop iteration invokes the policy's
`assign_task_to_server` **once**; when that single pick succeeds and
returns `server`, the step increments `Running Tasks` and `Busy Servers`
by 1, decrements the `Available Servers` count of the server's type by 1,
adds the elapsed period to the queue-size histogram bin
`min((len(tasks) + 1) / bin_size, 9)`, and replaces the cached
earliest-ending server by the new one exactly when its `end_exact` is
strictly below the cached `next_serv_end_time`. -/
theorem scheduling_pick_effects (policy : Stomp.Policy) (st : Stomp.SimState)
    (server : Stomp.Server) (ts' : List Stomp.Task)
    (h : policy st.sim_time st.tasks = (some server, ts'))
    (hlen : st.queueHist.length = 10) :
    (Stomp.schedulingStep policy st).runningTasks = st.runningTasks + 1
    ∧ (Stomp.schedulingStep policy st).busyServers = st.busyServers + 1
    ∧ (Stomp.schedulingStep policy st).availableServers
        = Stomp.bumpAssoc st.availableServers server.stype (-1)
    ∧ Stomp.lookupAssoc (Stomp.schedulingStep policy st).availableServers server.stype
        = (Stomp.lookupAssoc st.availableServers server.stype).map (fun v => v + (-1))
    ∧ (Stomp.schedulingStep policy st).tasks = ts'
    ∧ (Stomp.schedulingStep policy st).queueHist
        = Stomp.addAt st.queueHist (min ((ts'.length + 1) / st.bin_size) 9)
            (st.sim_time - st.last_size_change_time)
    ∧ (Stomp.schedulingStep policy st).last_size_change_time = st.sim_time
    ∧ (Stomp.ltInf (some server.curr_job_end_time) st.next_serv_end_time = true →
        (Stomp.schedulingStep policy st).next_serv_end_time = some server.curr_job_end_time
        ∧ (Stomp.schedulingStep policy st).next_serv_end = some server)
    ∧ (Stomp.ltInf (some server.curr_job_end_time) st.next_serv_end_time = false →
        (Stomp.schedulingStep policy st).next_serv_end_time = st.next_serv_end_time
        ∧ (Stomp.schedulingStep policy st).next_serv_end = st.next_serv_end) := by
  have hmin : ∀ q : Nat,
      (if q / st.bin_size ≥ st.queueHist.length then st.queueHist.length - 1
        else q / st.bin_size) = min (q / st.bin_size) 9 := by
    intro q
    rw [hlen]
    split <;> omega
  simp only [Stomp.schedulingStep, h]
  by_cases hlt : Stomp.ltInf (some server.curr_job_end_time) st.next_serv_end_time = true
  · refine ⟨?_, ?_, ?_, ?_, ?_, ?_, ?_, fun _ => ⟨?_, ?_⟩, fun hfalse => ?_⟩ <;>
      first
      | (rw [hlt] at hfalse; cases hfalse)
      | simp [Stomp.bindServer, Stomp.histUpdate, hlt, hmin, lookupAssoc_bumpAssoc]
  · have hlt' : Stomp.ltInf (some server.curr_job_end_time) st.next_serv_end_time = false := by
      cases hv : Stomp.ltInf (some server.curr_job_end_time) st.next_serv_end_time
      · rfl
      · exact absurd hv hlt
    refine ⟨?_, ?_, ?_, ?_, ?_, ?_, ?_, fun htrue => ?_, fun _ => ⟨?_, ?_⟩⟩ <;>
      first
      | (rw [hlt'] at htrue; cases htrue)
      | simp [Stomp.bindServer, Stomp.histUpdate, hlt', hmin, lookupAssoc_bumpAssoc]

/-- Concrete check of the amended C1: the demo policy binds
`demoBoundServer` on the two-task demo state. -/
theorem scheduling_pick_effects_witness :
    (Stomp.schedulingStep greedyDemoPolicy demoSimState).runningTasks
        = demoSimState.runningTasks + 1
    ∧ (Stomp.schedulingStep greedyDemoPolicy demoSimState).busyServers
        = demoSimState.busyServers + 1 :=
  ⟨(scheduling_pick_effects greedyDemoPolicy demoSimState demoBoundServer
      [⟨"fft", 5⟩] rfl rfl).1,
   (scheduling_pick_effects greedyDemoPolicy demoSimState demoBoundServer
      [⟨"fft", 5⟩] rfl rfl).2.1⟩

/-- Concrete check of the amended C4: on the release path the rescan over
the two tied busy servers selects the higher id (`srvB`), while on the
bind path a step-3 bind of `srvD` (id 5, end 10) that ties the cached
`(srvC, 10)` leaves the lower-id incumbent `srvC` selected. -/
theorem server_finish_tie_break_paths_witness :
    (srvB.busy = true
      ∧ (some 5 : Option Int) = some srvB.curr_job_end_time
      ∧ (∀ s' ∈ [srvA, srvB], s'.busy = true →
          srvB.curr_job_end_time ≤ s'.curr_job_end_time)
      ∧ (∀ s' ∈ [srvA, srvB], s'.busy = true →
          s'.curr_job_end_time = srvB.curr_job_end_time → s'.id ≤ srvB.id))
    ∧ ((Stomp.bindServer srvD demoTieState).next_serv_end = demoTieState.next_serv_end
      ∧ (Stomp.bindServer srvD demoTieState).next_serv_end_time
          = demoTieState.next_serv_end_time) :=
  ⟨server_finish_tie_break_paths.1 [srvA, srvB] (some 5) srvB (by decide) (by decide),
   server_finish_tie_break_paths.2 srvD demoTieState rfl⟩

/-! ### C5 -/

theorem entryLe_trans_bool : ∀ a b c : MetaSim.TaskEntry,
    MetaSim.entryLe a b → MetaSim.entryLe b c → MetaSim.entryLe a c := by
  intro a b c h1 h2
  simp [MetaSim.entryLe] at *
  omega

theorem entryLe_total_bool : ∀ a b : MetaSim.TaskEntry,
    MetaSim.entryLe a b || MetaSim.entryLe b a := by
  intro a b
  simp [MetaSim.entryLe]
  omega

/-- Stability of the ready-queue sort, filter form: sorting never reorders
the descriptors that share one effective arrival time. -/
theorem filter_mergeSort_atime (l : List MetaSim.TaskEntry) (k : Int) :
    (l.mergeSort MetaSim.entryLe).filter (fun e => e.atime == k)
      = l.filter (fun e => e.atime == k) := by
  have hpair : (l.filter (fun e => e.atime == k)).Pairwise
      (fun a b => MetaSim.entryLe a b) := by
    apply List.pairwise_of_forall_mem_list
    intro a ha b hb
    have ha' : a.atime = k := by simpa using (List.mem_filter.mp ha).2
    have hb' : b.atime = k := by simpa using (List.mem_filter.mp hb).2
    simp [MetaSim.entryLe, ha', hb']
  have h1 : List.Sublist (l.filter (fun e => e.atime == k)) (l.mergeSort MetaSim.entryLe) :=
    List.sublist_mergeSort entryLe_trans_bool entryLe_total_bool hpair (List.filter_sublist l)
  have h2 : List.Sublist (l.filter (fun e => e.atime == k))
      ((l.mergeSort MetaSim.entryLe).filter (fun e => e.atime == k)) := by
    have := h1.filter (fun e => e.atime == k)
    simpa [List.filter_filter] using this
  have h3 : ((l.mergeSort MetaSim.entryLe).filter (fun e => e.atime == k)).length
      = (l.filter (fun e => e.atime == k)).length :=
    ((List.mergeSort_perm l MetaSim.entryLe).filter (fun e => e.atime == k)).length_eq
  exact (h2.eq_of_length h3.symm).symm

theorem metaBatchAppend_filter (temp : List MetaSim.TaskEntry) :
    ∀ (q : List MetaSim.TaskEntry) (k : Int),
      (MetaSim.metaBatchAppend q temp).filter (fun e => e.atime == k)
        = (q ++ temp).filter (fun e => e.atime == k) := by
  induction temp with
  | nil =>
    intro q k
    simp [MetaSim.metaBatchAppend]
  | cons e rest ih =>
    intro q k
    have hstep : MetaSim.metaBatchAppend q (e :: rest)
        = MetaSim.metaBatchAppend ((q ++ [e]).mergeSort MetaSim.entryLe) rest := rfl
    rw [hstep, ih, List.filter_append, filter_mergeSort_atime]
    simp [List.filter_append, List.filter_cons]
    split <;> simp

theorem metaBatchAppend_sorted (temp : List MetaSim.TaskEntry) :
    ∀ q : List MetaSim.TaskEntry, MetaSim.QueueSorted q →
      MetaSim.QueueSorted (MetaSim.metaBatchAppend q temp) := by
  induction temp with
  | nil => exact fun q hq => hq
  | cons e rest ih =>
    intro q hq
    exact ih _ (List.sorted_mergeSort entryLe_trans_bool entryLe_total_bool (q ++ [e]))

theorem metaBatchAppend_perm (temp : List MetaSim.TaskEntry) :
    ∀ q : List MetaSim.TaskEntry, List.Perm (MetaSim.metaBatchAppend q temp) (q ++ temp) := by
  induction temp with
  | nil =>
    intro q
    simp [MetaSim.metaBatchAppend]
  | cons e rest ih =>
    intro q
    have hstep : MetaSim.metaBatchAppend q (e :: rest)
        = MetaSim.metaBatchAppend ((q ++ [e]).mergeSort MetaSim.entryLe) rest := rfl
    rw [hstep]
    refine (ih _).trans ?_
    have h1 : List.Perm ((q ++ [e]).mergeSort MetaSim.entryLe ++ rest) ((q ++ [e]) ++ rest) :=
      (List.mergeSort_perm (q ++ [e]) MetaSim.entryLe).append_right rest
    refine h1.trans ?_
    have : (q ++ [e]) ++ rest = q ++ (e :: rest) := by simp
    rw [this]

/-- C5: after each manager batch append the shared ready queue is sorted by
effective arrival time ascending, the sort is stable (descriptors that
share an effective arrival time keep their insertion order, stated in
filter form), the result is a permutation of the old queue plus the batch,
and the refreshed `next_cust_arrival_time` equals the effective arrival
time of the queue head. -/
theorem ready_queue_sorted_stable (q temp : List MetaSim.TaskEntry) (next : Int)
    (hq : MetaSim.QueueSorted q) :
    MetaSim.QueueSorted (MetaSim.metaBatchAppend q temp)
    ∧ (∀ k : Int, (MetaSim.metaBatchAppend q temp).filter (fun e => e.atime == k)
        = (q ++ temp).filter (fun e => e.atime == k))
    ∧ List.Perm (MetaSim.metaBatchAppend q temp) (q ++ temp)
    ∧ (∀ e rest, MetaSim.metaBatchAppend q temp = e :: rest →
        MetaSim.refreshNextArrival (MetaSim.metaBatchAppend q temp) next = e.atime) := by
  refine ⟨metaBatchAppend_sorted temp q hq, fun k => metaBatchAppend_filter temp q k,
    metaBatchAppend_perm temp q, ?_⟩
  intro e rest h
  rw [h, MetaSim.refreshNextArrival]
  split
  · rfl
  · omega

/-- Concrete check of C5: a batch of two descriptors, one tied with the
resident queue entry at time 3 (stability keeps `demoEntryA` before
`demoEntryB`) and one at the strictly smaller time 1 that becomes the new
head and the new `next_cust_arrival_time`. -/
theorem ready_queue_sorted_stable_witness :
    MetaSim.QueueSorted (MetaSim.metaBatchAppend [demoEntryA] [demoEntryB, demoEntryC])
    ∧ (MetaSim.metaBatchAppend [demoEntryA] [demoEntryB, demoEntryC]).filter
        (fun e => e.atime == 3)
        = ([demoEntryA] ++ [demoEntryB, demoEntryC]).filter (fun e => e.atime == 3) :=
  ⟨(ready_queue_sorted_stable [demoEntryA] [demoEntryB, demoEntryC] 0 (by decide)).1,
   (ready_queue_sorted_stable [demoEntryA] [demoEntryB, demoEntryC] 0 (by decide)).2.1 3⟩

/-! ### C2 -/

theorem lookupDag_mem_keys {d : List (Nat × MetaSim.DAG)} {k : Nat} {v : MetaSim.DAG}
    (h : MetaSim.lookupDag d k = some v) : k ∈ d.map Prod.fst := by
  rw [MetaSim.lookupDag] at h
  obtain ⟨p', hfind, hv⟩ := Option.map_eq_some'.mp h
  have hp : p'.1 = k := by simpa using List.find?_some hfind
  have hmem := List.mem_of_find?_eq_some hfind
  exact hp ▸ List.mem_map_of_mem Prod.fst hmem

theorem keys_updateDag (d : List (Nat × MetaSim.DAG)) (k : Nat) (v : MetaSim.DAG) :
    (MetaSim.updateDag d k v).map Prod.fst = d.map Prod.fst := by
  rw [MetaSim.updateDag, List.map_map]
  apply List.map_congr_left
  intro p hp
  simp only [Function.comp]
  split
  · next h => simpa using (by simpa using h : p.1 = k).symm
  · rfl

theorem lookup_updateDag_self (d : List (Nat × MetaSim.DAG)) (k : Nat) (v : MetaSim.DAG)
    (h : k ∈ d.map Prod.fst) :
    MetaSim.lookupDag (MetaSim.updateDag d k v) k = some v := by
  induction d with
  | nil => simp at h
  | cons p ps ih =>
    by_cases hk : p.1 = k
    · have hcons : MetaSim.updateDag (p :: ps) k v = (k, v) :: MetaSim.updateDag ps k v := by
        simp [MetaSim.updateDag, hk]
      rw [hcons, MetaSim.lookupDag, List.find?_cons_of_pos _ (by simp)]
      rfl
    · have hcons : MetaSim.updateDag (p :: ps) k v = p :: MetaSim.updateDag ps k v := by
        simp [MetaSim.updateDag, hk]
      rw [hcons, MetaSim.lookupDag, List.find?_cons_of_neg _ (by simpa using hk)]
      have h' : k ∈ ps.map Prod.fst := by
        have hx : k ∈ (p :: ps).map Prod.fst := h
        rw [List.map_cons] at hx
        rcases List.mem_cons.mp hx with h1 | h2
        · exact absurd h1.symm hk
        · exact h2
      exact ih h'

theorem keys_eraseDag (d : List (Nat × MetaSim.DAG)) (k : Nat) :
    (MetaSim.eraseDag d k).map Prod.fst = (d.map Prod.fst).filter (fun x => x != k) := by
  induction d with
  | nil => rfl
  | cons p ps ih =>
    by_cases hk : p.1 = k
    · have : MetaSim.eraseDag (p :: ps) k = MetaSim.eraseDag ps k := by
        simp [MetaSim.eraseDag, List.filter_cons, hk]
      rw [this, ih]
      simp [List.filter_cons, hk]
    · have : MetaSim.eraseDag (p :: ps) k = p :: MetaSim.eraseDag ps k := by
        simp [MetaSim.eraseDag, List.filter_cons, hk]
      rw [this, List.map_cons, ih]
      simp [List.filter_cons, hk]

theorem mem_keys_eraseDag (d : List (Nat × MetaSim.DAG)) (k k' : Nat) :
    k' ∈ (MetaSim.eraseDag d k).map Prod.fst ↔ k' ∈ d.map Prod.fst ∧ k' ≠ k := by
  rw [keys_eraseDag]
  simp [List.mem_filter]

/-- Invariant preservation of one completion-drain step: the dict keyset
stays equal (as a set) to the active id list, both stay duplicate-free,
and the multiset of ids split between the active list and the result list
is preserved. -/
theorem processCompletion_invariant (st : MetaSim.MetaState) (c : MetaSim.CompletedTask)
    (hiff : ∀ k, k ∈ st.dag_dict.map Prod.fst ↔ k ∈ st.dag_id_list)
    (hnl : st.dag_id_list.Nodup)
    (hnk : (st.dag_dict.map Prod.fst).Nodup) :
    (∀ k, k ∈ (MetaSim.processCompletion st c).dag_dict.map Prod.fst
        ↔ k ∈ (MetaSim.processCompletion st c).dag_id_list)
    ∧ (MetaSim.processCompletion st c).dag_id_list.Nodup
    ∧ ((MetaSim.processCompletion st c).dag_dict.map Prod.fst).Nodup
    ∧ List.Perm
        ((MetaSim.processCompletion st c).dag_id_list
          ++ (MetaSim.processCompletion st c).end_list.map (fun e => e.1))
        (st.dag_id_list ++ st.end_list.map (fun e => e.1)) := by
  rcases hl : MetaSim.lookupDag st.dag_dict c.dag_id with _ | dag
  · simp only [MetaSim.processCompletion, hl]
    exact ⟨hiff, hnl, hnk, List.Perm.refl _⟩
  · have hmemk : c.dag_id ∈ st.dag_dict.map Prod.fst := lookupDag_mem_keys hl
    have hmeml : c.dag_id ∈ st.dag_id_list := (hiff _).mp hmemk
    have hupdate : ∀ dag' : MetaSim.DAG,
        (∀ k, k ∈ (MetaSim.updateDag st.dag_dict c.dag_id dag').map Prod.fst
            ↔ k ∈ st.dag_id_list)
        ∧ st.dag_id_list.Nodup
        ∧ ((MetaSim.updateDag st.dag_dict c.dag_id dag').map Prod.fst).Nodup
        ∧ List.Perm (st.dag_id_list ++ st.end_list.map (fun e => e.1))
            (st.dag_id_list ++ st.end_list.map (fun e => e.1)) := by
      intro dag'
      rw [keys_updateDag]
      exact ⟨hiff, hnl, hnk, List.Perm.refl _⟩
    have hremove : ∀ ty : String, ∀ rt : Int,
        (∀ k, k ∈ (MetaSim.eraseDag st.dag_dict c.dag_id).map Prod.fst
            ↔ k ∈ st.dag_id_list.erase c.dag_id)
        ∧ (st.dag_id_list.erase c.dag_id).Nodup
        ∧ ((MetaSim.eraseDag st.dag_dict c.dag_id).map Prod.fst).Nodup
        ∧ List.Perm
            (st.dag_id_list.erase c.dag_id
              ++ (st.end_list ++ [(c.dag_id, ty, rt)]).map (fun e => e.1))
            (st.dag_id_list ++ st.end_list.map (fun e => e.1)) := by
      intro ty rt
      refine ⟨?_, hnl.erase _, ?_, ?_⟩
      · intro k
        rw [mem_keys_eraseDag, hiff, hnl.mem_erase_iff]
        tauto
      · rw [keys_eraseDag]
        exact hnk.filter _
      · have h1 : List.Perm st.dag_id_list (c.dag_id :: st.dag_id_list.erase c.dag_id) :=
          List.perm_cons_erase hmeml
        rw [List.map_append]
        have h2 : List.Perm
            (st.dag_id_list.erase c.dag_id
              ++ (st.end_list.map (fun e => e.1) ++ ([(c.dag_id, ty, rt)].map (fun e => e.1))))
            ((st.dag_id_list.erase c.dag_id ++ st.end_list.map (fun e => e.1)) ++ [c.dag_id]) := by
          rw [← List.append_assoc]
          rfl
        refine h2.trans ?_
        have h3 : List.Perm
            ((st.dag_id_list.erase c.dag_id ++ st.end_list.map (fun e => e.1)) ++ [c.dag_id])
            ([c.dag_id] ++ (st.dag_id_list.erase c.dag_id ++ st.end_list.map (fun e => e.1))) :=
          List.perm_append_comm
        refine h3.trans ?_
        have h4 : [c.dag_id] ++ (st.dag_id_list.erase c.dag_id ++ st.end_list.map (fun e => e.1))
            = (c.dag_id :: st.dag_id_list.erase c.dag_id) ++ st.end_list.map (fun e => e.1) := by
          simp
        rw [h4]
        exact h1.symm.append_right _
    rcases hn : MetaSim.findNodeByTid dag.graph c.tid with _ | n <;>
      simp only [MetaSim.processCompletion, hl, hn] <;>
      split
    · exact hremove dag.dag_type dag.resp_time
    · exact hupdate dag
    · exact hremove dag.dag_type ((c.arrival_time + c.task_lifetime) - dag.arrival_time)
    · exact hupdate _

/-- C2: for a drained completion whose `dag_id` is active and whose `tid`
matches a node of that DAG's graph, the manager sets `ready_time` to the
completion's arrival time plus its service time, sets `resp_time` to
`ready_time - arrival_time`, and removes the matching node; when the graph
thereby becomes empty it records exactly one result entry
`(dag_id, dag_type, resp_time)` and removes the DAG from both the mapping
and the active id list, and the mapping's keyset stays equal to the list's
value-set. -/
theorem completion_updates_dag (st : MetaSim.MetaState) (c : MetaSim.CompletedTask)
    (dag : MetaSim.DAG) (n : MetaSim.MetaTask)
    (hdag : MetaSim.lookupDag st.dag_dict c.dag_id = some dag)
    (hnode : MetaSim.findNodeByTid dag.graph c.tid = some n)
    (hiff : ∀ k, k ∈ st.dag_dict.map Prod.fst ↔ k ∈ st.dag_id_list)
    (hnl : st.dag_id_list.Nodup)
    (hnk : (st.dag_dict.map Prod.fst).Nodup) :
    (n ∈ dag.graph.nodes ∧ n.tid = c.tid
      ∧ (∀ m ∈ (dag.graph.removeNode c.tid).nodes, m.tid ≠ c.tid)
      ∧ (∀ m ∈ dag.graph.nodes, m.tid ≠ c.tid → m ∈ (dag.graph.removeNode c.tid).nodes))
    ∧ ((dag.graph.removeNode c.tid).nodes ≠ [] →
        MetaSim.lookupDag (MetaSim.processCompletion st c).dag_dict c.dag_id
          = some { dag with
              ready_time := c.arrival_time + c.task_lifetime,
              resp_time := (c.arrival_time + c.task_lifetime) - dag.arrival_time,
              graph := dag.graph.removeNode c.tid }
        ∧ (MetaSim.processCompletion st c).end_list = st.end_list
        ∧ (MetaSim.processCompletion st c).dag_id_list = st.dag_id_list)
    ∧ ((dag.graph.removeNode c.tid).nodes = [] →
        (MetaSim.processCompletion st c).end_list
          = st.end_list ++ [(c.dag_id, dag.dag_type,
              (c.arrival_time + c.task_lifetime) - dag.arrival_time)]
        ∧ c.dag_id ∉ (MetaSim.processCompletion st c).dag_dict.map Prod.fst
        ∧ c.dag_id ∉ (MetaSim.processCompletion st c).dag_id_list)
    ∧ (∀ k, k ∈ (MetaSim.processCompletion st c).dag_dict.map Prod.fst
        ↔ k ∈ (MetaSim.processCompletion st c).dag_id_list) := by
  have hrm : (dag.graph.removeNode c.tid).nodes
      = dag.graph.nodes.filter (fun m => m.tid != c.tid) := rfl
  have hproc : MetaSim.processCompletion st c
      = if (dag.graph.removeNode c.tid).nodes.length = 0 then
          { dag_dict := MetaSim.eraseDag st.dag_dict c.dag_id,
            dag_id_list := st.dag_id_list.erase c.dag_id,
            end_list := st.end_list ++ [(c.dag_id, dag.dag_type,
              (c.arrival_time + c.task_lifetime) - dag.arrival_time)] }
        else { st with dag_dict := MetaSim.updateDag st.dag_dict c.dag_id ({ dag with ready_time := c.arrival_time + c.task_lifetime, resp_time := (c.arrival_time + c.task_lifetime) - dag.arrival_time, graph := dag.graph.removeNode c.tid }) } := by
    simp only [MetaSim.processCompletion, hdag, hnode]
  refine ⟨⟨?_, ?_, ?_, ?_⟩, ?_, ?_, (processCompletion_invariant st c hiff hnl hnk).1⟩
  · exact List.mem_of_find?_eq_some hnode
  · simpa using List.find?_some hnode
  · intro m hm
    rw [hrm] at hm
    simpa using (List.mem_filter.mp hm).2
  · intro m hm hne
    rw [hrm]
    exact List.mem_filter.mpr ⟨hm, by simpa using hne⟩
  · intro hne
    have hcond : ¬((dag.graph.removeNode c.tid).nodes.length = 0) := by
      simpa [List.length_eq_zero] using hne
    rw [hproc, if_neg hcond]
    exact ⟨lookup_updateDag_self _ _ _ (lookupDag_mem_keys hdag), rfl, rfl⟩
  · intro hemp
    have hcond : (dag.graph.removeNode c.tid).nodes.length = 0 := by
      simp [hemp]
    rw [hproc, if_pos hcond]
    refine ⟨rfl, ?_, ?_⟩
    · rw [mem_keys_eraseDag]
      simp
    · intro hmem
      exact ((hnl.mem_erase_iff).mp hmem).1 rfl

/-- Concrete check of C2: completing the only task of `demoDag` retires the
DAG, appends its single result entry and removes id 7 everywhere. -/
theorem completion_updates_dag_witness :
    (MetaSim.processCompletion demoMetaState demoCompletion).end_list
        = demoMetaState.end_list ++ [(demoCompletion.dag_id, demoDag.dag_type,
            (demoCompletion.arrival_time + demoCompletion.task_lifetime)
              - demoDag.arrival_time)]
    ∧ demoCompletion.dag_id
        ∉ (MetaSim.processCompletion demoMetaState demoCompletion).dag_dict.map Prod.fst
    ∧ demoCompletion.dag_id
        ∉ (MetaSim.processCompletion demoMetaState demoCompletion).dag_id_list :=
  (completion_updates_dag demoMetaState demoCompletion demoDag demoNode0 rfl rfl
    (fun _ => Iff.rfl) (by decide) (by decide)).2.2.1 (by decide)

/-! ### C6 -/

theorem processCompTimeGo_eq_zip (stypes : List String) :
    ∀ (rest : List String) (k : Nat), rest.length + k ≤ stypes.length →
      MetaSim.processCompTimeGo stypes rest (k + 2) = some ((stypes.drop k).zip rest) := by
  intro rest
  induction rest with
  | nil =>
    intro k h
    simp [MetaSim.processCompTimeGo]
  | cons c cs ih =>
    intro k h
    have h' : cs.length + 1 + k ≤ stypes.length := by simpa using h
    have hk : k < stypes.length := by omega
    rw [MetaSim.processCompTimeGo]
    rw [if_neg (by omega : ¬(k + 2 ≤ 1))]
    rw [show k + 2 - 2 = k from by omega]
    rw [List.get?_eq_getElem?, List.getElem?_eq_getElem hk]
    show ((MetaSim.processCompTimeGo stypes cs (k + 2 + 1)).map
      (fun l => (stypes[k], c) :: l)) = some ((stypes.drop k).zip (c :: cs))
    rw [show k + 2 + 1 = k + 1 + 2 from by omega]
    rw [ih (k + 1) (by omega)]
    rw [List.drop_eq_getElem_cons hk]
    rfl

theorem process_comp_time_eq_zip (comp : List (List String)) (tid : Nat) (row : List String)
    (hrow : comp.get? tid = some row)
    (hlen : row.length ≤ 2 + MetaSim.serverTypes.length) :
    MetaSim.process_comp_time comp tid
      = some (MetaSim.serverTypes.zip (row.drop 2)) := by
  simp only [MetaSim.process_comp_time, hrow]
  rcases row with _ | ⟨c0, row1⟩
  · simp [MetaSim.processCompTimeGo]
  · rcases row1 with _ | ⟨c1, rest⟩
    · simp [MetaSim.processCompTimeGo]
    · have h0 : MetaSim.processCompTimeGo MetaSim.serverTypes (c0 :: c1 :: rest) 0
          = MetaSim.processCompTimeGo MetaSim.serverTypes rest 2 := by
        rw [MetaSim.processCompTimeGo, if_pos (by omega : (0 : Nat) ≤ 1)]
        rw [MetaSim.processCompTimeGo, if_pos (by omega : (1 : Nat) ≤ 1)]
      rw [h0]
      have hlen' : rest.length + 0 ≤ MetaSim.serverTypes.length := by
        have : rest.length + 2 ≤ 2 + MetaSim.serverTypes.length := by simpa using hlen
        omega
      have := processCompTimeGo_eq_zip MetaSim.serverTypes rest 0 hlen'
      simpa using this

theorem emitGo_entry_tids (dag : MetaSim.DAG) :
    ∀ (ns : List MetaSim.MetaTask) (es : List MetaSim.TaskEntry) (ns' : List MetaSim.MetaTask),
      MetaSim.emitGo dag ns = some (es, ns') →
      ∀ e ∈ es, ∃ m ∈ ns, e.tid = m.tid := by
  intro ns
  induction ns with
  | nil =>
    intro es ns' h e he
    rw [MetaSim.emitGo] at h
    injection h with h
    rw [← ((Prod.mk.injEq _ _ _ _).mp h).1] at he
    simp at he
  | cons m ms ih =>
    intro es ns' h e he
    rw [MetaSim.emitGo] at h
    by_cases hc : dag.graph.inDegree m.tid = 0 ∧ m.scheduled = 0
    · rw [if_pos hc] at h
      rcases hb : (dag.comp.get? m.tid).bind (fun row => row.get? 0) with _ | base'
        <;> rcases hp : MetaSim.process_comp_time dag.comp m.tid with _ | stimes'
        <;> rw [hb, hp] at h
      · cases h
      · cases h
      · cases h
      · obtain ⟨p, hrec, hfp⟩ := Option.map_eq_some'.mp h
        obtain ⟨hes, hns⟩ := (Prod.mk.injEq _ _ _ _).mp hfp
        rw [← hes] at he
        rcases List.mem_cons.mp he with hhead | htail
        · exact ⟨m, List.mem_cons_self m ms, by rw [hhead]⟩
        · obtain ⟨m', hm', he'⟩ := ih p.1 p.2 (by rw [hrec]) e htail
          exact ⟨m', List.mem_cons_of_mem m hm', he'⟩
    · rw [if_neg hc] at h
      obtain ⟨p, hrec, hfp⟩ := Option.map_eq_some'.mp h
      obtain ⟨hes, hns⟩ := (Prod.mk.injEq _ _ _ _).mp hfp
      rw [← hes] at he
      obtain ⟨m', hm', he'⟩ := ih p.1 p.2 (by rw [hrec]) e he
      exact ⟨m', List.mem_cons_of_mem m hm', he'⟩

theorem emitGo_twice (dag dag2 : MetaSim.DAG)
    (hedges : dag2.graph.edges = dag.graph.edges) :
    ∀ (ns : List MetaSim.MetaTask) (es : List MetaSim.TaskEntry) (ns' : List MetaSim.MetaTask),
      MetaSim.emitGo dag ns = some (es, ns') →
      MetaSim.emitGo dag2 ns' = some ([], ns') := by
  have hdeg : ∀ t, dag2.graph.inDegree t = dag.graph.inDegree t := by
    intro t
    rw [MetaSim.Graph.inDegree, MetaSim.Graph.inDegree, hedges]
  intro ns
  induction ns with
  | nil =>
    intro es ns' h
    rw [MetaSim.emitGo] at h
    injection h with h
    rw [← (Prod.mk.injEq _ _ _ _).mp h |>.2]
    rw [MetaSim.emitGo]
  | cons m ms ih =>
    intro es ns' h
    rw [MetaSim.emitGo] at h
    by_cases hc : dag.graph.inDegree m.tid = 0 ∧ m.scheduled = 0
    · rw [if_pos hc] at h
      rcases hb : (dag.comp.get? m.tid).bind (fun row => row.get? 0) with _ | base'
        <;> rcases hp : MetaSim.process_comp_time dag.comp m.tid with _ | stimes'
        <;> rw [hb, hp] at h
      · cases h
      · cases h
      · cases h
      · obtain ⟨p, hrec, hfp⟩ := Option.map_eq_some'.mp h
        obtain ⟨hes, hns⟩ := (Prod.mk.injEq _ _ _ _).mp hfp
        rw [← hns]
        rw [MetaSim.emitGo]
        rw [if_neg (by simp)]
        rw [ih p.1 p.2 (by rw [hrec])]
        rfl
    · rw [if_neg hc] at h
      obtain ⟨p, hrec, hfp⟩ := Option.map_eq_some'.mp h
      obtain ⟨hes, hns⟩ := (Prod.mk.injEq _ _ _ _).mp hfp
      rw [← hns]
      rw [MetaSim.emitGo]
      rw [if_neg (by rw [hdeg]; exact hc)]
      rw [ih p.1 p.2 (by rw [hrec])]
      rfl

theorem emitGo_filter_spec (dag : MetaSim.DAG) (n : MetaSim.MetaTask)
    (row : List String) (base : String)
    (hrow : dag.comp.get? n.tid = some row)
    (hbase : row.get? 0 = some base)
    (hlen : row.length ≤ 2 + MetaSim.serverTypes.length)
    (helig : dag.graph.inDegree n.tid = 0) (hsched : n.scheduled = 0) :
    ∀ (ns : List MetaSim.MetaTask) (es : List MetaSim.TaskEntry) (ns' : List MetaSim.MetaTask),
      MetaSim.emitGo dag ns = some (es, ns') →
      n ∈ ns → (ns.map MetaSim.MetaTask.tid).Nodup →
      es.filter (fun e => e.tid == n.tid)
        = [⟨if n.tid = 0 then dag.arrival_time else dag.ready_time, base, dag.id, n.tid,
            MetaSim.serverTypes.zip (row.drop 2)⟩]
      ∧ ({ n with scheduled := 1 }) ∈ ns' := by
  intro ns
  induction ns with
  | nil =>
    intro es ns' h hmem hnd
    simp at hmem
  | cons m ms ih =>
    intro es ns' h hmem hnd
    rw [MetaSim.emitGo] at h
    have hnd' : (ms.map MetaSim.MetaTask.tid).Nodup := by
      rw [List.map_cons] at hnd
      exact hnd.of_cons
    have hhead : m.tid ∉ ms.map MetaSim.MetaTask.tid := by
      rw [List.map_cons] at hnd
      exact (List.nodup_cons.mp hnd).1
    rcases List.mem_cons.mp hmem with heq | htail
    · -- the scanned head is the node of interest
      subst heq
      rw [if_pos ⟨helig, hsched⟩] at h
      rcases hb : (dag.comp.get? n.tid).bind (fun row => row.get? 0) with _ | base'
        <;> rcases hp : MetaSim.process_comp_time dag.comp n.tid with _ | stimes'
        <;> rw [hb, hp] at h
      · cases h
      · cases h
      · cases h
      · have hbase' : base' = base := by
          have : (dag.comp.get? n.tid).bind (fun row => row.get? 0) = some base := by
            rw [hrow]
            simpa using hbase
          rw [this] at hb
          exact ((Option.some.injEq _ _).mp hb).symm
        have hstimes' : stimes' = MetaSim.serverTypes.zip (row.drop 2) := by
          have := process_comp_time_eq_zip dag.comp n.tid row hrow hlen
          rw [this] at hp
          exact ((Option.some.injEq _ _).mp hp).symm
        obtain ⟨p, hrec, hfp⟩ := Option.map_eq_some'.mp h
        obtain ⟨hes, hns⟩ := (Prod.mk.injEq _ _ _ _).mp hfp
        constructor
        · rw [← hes]
          rw [List.filter_cons]
          rw [if_pos (by simp)]
          have hrest : p.1.filter (fun e => e.tid == n.tid) = [] := by
            rw [List.filter_eq_nil_iff]
            intro e hein
            obtain ⟨m', hm', he'⟩ := emitGo_entry_tids dag ms p.1 p.2 (by rw [hrec]) e hein
            have : m'.tid ≠ n.tid := by
              intro hcon
              exact hhead (hcon ▸ List.mem_map_of_mem MetaSim.MetaTask.tid hm')
            simpa [he'] using this
          rw [hrest, hbase', hstimes']
        · rw [← hns]
          exact List.mem_cons_self _ _
    · -- the node of interest is further down the list
      have hmtid : m.tid ≠ n.tid := by
        intro hcon
        exact hhead (hcon ▸ List.mem_map_of_mem MetaSim.MetaTask.tid htail)
      by_cases hc : dag.graph.inDegree m.tid = 0 ∧ m.scheduled = 0
      · rw [if_pos hc] at h
        rcases hb : (dag.comp.get? m.tid).bind (fun row => row.get? 0) with _ | base'
          <;> rcases hp : MetaSim.process_comp_time dag.comp m.tid with _ | stimes'
          <;> rw [hb, hp] at h
        · cases h
        · cases h
        · cases h
        · obtain ⟨p, hrec, hfp⟩ := Option.map_eq_some'.mp h
          obtain ⟨hes, hns⟩ := (Prod.mk.injEq _ _ _ _).mp hfp
          obtain ⟨ih1, ih2⟩ := ih p.1 p.2 (by rw [hrec]) htail hnd'
          constructor
          · rw [← hes, List.filter_cons, if_neg (by simpa using hmtid)]
            exact ih1
          · rw [← hns]
            exact List.mem_cons_of_mem _ ih2
      · rw [if_neg hc] at h
        obtain ⟨p, hrec, hfp⟩ := Option.map_eq_some'.mp h
        obtain ⟨hes, hns⟩ := (Prod.mk.injEq _ _ _ _).mp hfp
        obtain ⟨ih1, ih2⟩ := ih p.1 p.2 (by rw [hrec]) htail hnd'
        constructor
        · rw [← hes]
          exact ih1
        · rw [← hns]
          exact List.mem_cons_of_mem _ ih2

/-- C6: for every node of a DAG whose in-degree is zero and whose scheduled
flag is 0, the ready scan emits exactly one descriptor for it — with
effective arrival time equal to the DAG's `arrival_time` when `tid == 0`
and to the DAG's current `ready_time` otherwise, base cost `comp[tid][0]`,
and a per-server cost table pairing the server types in order
(`cpu_core, gpu, accel`) with columns 2 onward of the matrix row — and
marks the node scheduled, so that running the scan again on the resulting
DAG emits nothing at all. -/
theorem ready_tasks_emitted (dag : MetaSim.DAG) (es : List MetaSim.TaskEntry)
    (dag' : MetaSim.DAG)
    (h : MetaSim.emitReadyTasks dag = some (es, dag'))
    (n : MetaSim.MetaTask) (row : List String) (base : String)
    (hn : n ∈ dag.graph.nodes)
    (helig : dag.graph.inDegree n.tid = 0) (hsched : n.scheduled = 0)
    (hnodup : (dag.graph.nodes.map MetaSim.MetaTask.tid).Nodup)
    (hrow : dag.comp.get? n.tid = some row)
    (hbase : row.get? 0 = some base)
    (hlen : row.length ≤ 2 + MetaSim.serverTypes.length) :
    es.filter (fun e => e.tid == n.tid)
      = [⟨if n.tid = 0 then dag.arrival_time else dag.ready_time, base, dag.id, n.tid,
          MetaSim.serverTypes.zip (row.drop 2)⟩]
    ∧ ({ n with scheduled := 1 }) ∈ dag'.graph.nodes
    ∧ MetaSim.emitReadyTasks dag' = some ([], dag') := by
  rw [MetaSim.emitReadyTasks] at h
  obtain ⟨p, hrec, hfp⟩ := Option.map_eq_some'.mp h
  obtain ⟨hes, hdag'⟩ := (Prod.mk.injEq _ _ _ _).mp hfp
  obtain ⟨hf, hmarked⟩ :=
    emitGo_filter_spec dag n row base hrow hbase hlen helig hsched
      dag.graph.nodes p.1 p.2 hrec hn hnodup
  refine ⟨?_, ?_, ?_⟩
  · rw [← hes]
    exact hf
  · rw [← hdag']
    simpa using hmarked
  · have htwice :=
      emitGo_twice dag { dag with graph := ⟨p.2, dag.graph.edges⟩ } rfl
        dag.graph.nodes p.1 p.2 hrec
    rw [← hdag', MetaSim.emitReadyTasks]
    dsimp only
    rw [htwice]
    rfl

/-- Concrete check of C6 on the two-node chain DAG: the root is emitted
exactly once with arrival time 50, base cost column 0 and the three typed
costs from columns 2-4; re-running the scan emits nothing. -/
theorem ready_tasks_emitted_witness :
    ([demoChainEntry].filter (fun e => e.tid == (MetaSim.MetaTask.init 0).tid))
      = [⟨if (MetaSim.MetaTask.init 0).tid = 0 then demoChainDag.arrival_time
            else demoChainDag.ready_time, "0", demoChainDag.id,
          (MetaSim.MetaTask.init 0).tid,
          MetaSim.serverTypes.zip ((["0", "10", "10", "12", "14"] : List String).drop 2)⟩]
    ∧ ({ MetaSim.MetaTask.init 0 with scheduled := 1 }) ∈ demoChainDagMarked.graph.nodes
    ∧ MetaSim.emitReadyTasks demoChainDagMarked = some ([], demoChainDagMarked) :=
  ready_tasks_emitted demoChainDag [demoChainEntry] demoChainDagMarked rfl
    (MetaSim.MetaTask.init 0) ["0", "10", "10", "12", "14"] "0"
    (by decide) rfl rfl (by decide) rfl rfl (by decide)

/-! ### C7 -/

theorem endEntryLe_trans_bool : ∀ a b c : Nat × String × Int,
    MetaSim.endEntryLe a b → MetaSim.endEntryLe b c → MetaSim.endEntryLe a c := by
  intro a b c h1 h2
  simp [MetaSim.endEntryLe] at *
  omega

theorem endEntryLe_total_bool : ∀ a b : Nat × String × Int,
    MetaSim.endEntryLe a b || MetaSim.endEntryLe b a := by
  intro a b
  simp [MetaSim.endEntryLe]
  omega

theorem insertDag_of_not_mem (d : List (Nat × MetaSim.DAG)) (k : Nat) (v : MetaSim.DAG)
    (h : k ∉ d.map Prod.fst) : MetaSim.insertDag d k v = d ++ [(k, v)] := by
  have hfind : d.find? (fun p => p.1 == k) = none := by
    rw [List.find?_eq_none]
    intro p hp
    simp only [beq_iff_eq]
    intro hcon
    exact h (hcon ▸ List.mem_map_of_mem Prod.fst hp)
  rw [MetaSim.insertDag, hfind]
  rfl

theorem loadTrace_go (graphOf : String → MetaSim.Graph)
    (compOf : String → List (List String)) (scale : Int)
    (lines : List MetaSim.TraceLine) :
    ∀ st : MetaSim.MetaState,
      (st.dag_dict.map Prod.fst ++ lines.map (fun l => l.2.1)).Nodup →
      (lines.foldl (MetaSim.loadTraceLine graphOf compOf scale) st).dag_dict.map Prod.fst
          = st.dag_dict.map Prod.fst ++ lines.map (fun l => l.2.1)
      ∧ (lines.foldl (MetaSim.loadTraceLine graphOf compOf scale) st).dag_id_list
          = st.dag_id_list ++ lines.map (fun l => l.2.1)
      ∧ (lines.foldl (MetaSim.loadTraceLine graphOf compOf scale) st).end_list
          = st.end_list := by
  induction lines with
  | nil =>
    intro st _
    simp
  | cons l rest ih =>
    intro st hnd
    have hid : l.2.1 ∉ st.dag_dict.map Prod.fst := by
      intro hmem
      rcases List.nodup_append.mp hnd with ⟨_, _, hdisj⟩
      exact hdisj hmem (by simp)
    have hstep : MetaSim.loadTraceLine graphOf compOf scale st l
        = { st with
            dag_dict := st.dag_dict
              ++ [(l.2.1, MetaSim.DAG.init l.2.1 (graphOf l.2.2) (compOf l.2.2)
                    (l.1 * scale) l.2.2)],
            dag_id_list := st.dag_id_list ++ [l.2.1] } := by
      rw [MetaSim.loadTraceLine]
      rw [insertDag_of_not_mem _ _ _ hid]
    have hnd' : ((MetaSim.loadTraceLine graphOf compOf scale st l).dag_dict.map Prod.fst
        ++ rest.map (fun l => l.2.1)).Nodup := by
      rw [hstep]
      have : (st.dag_dict
            ++ [(l.2.1, MetaSim.DAG.init l.2.1 (graphOf l.2.2) (compOf l.2.2)
                  (l.1 * scale) l.2.2)]).map Prod.fst
          = st.dag_dict.map Prod.fst ++ [l.2.1] := by
        simp
      rw [this, List.append_assoc]
      simpa using hnd
    have := ih (MetaSim.loadTraceLine graphOf compOf scale st l) hnd'
    rw [hstep] at this
    simp only [List.map_cons, List.foldl_cons]
    rw [hstep]
    refine ⟨?_, ?_, ?_⟩
    · rw [this.1]
      simp
    · rw [this.2.1]
      simp
    · exact this.2.2

theorem loadTrace_spec (graphOf : String → MetaSim.Graph)
    (compOf : String → List (List String)) (scale : Int)
    (lines : List MetaSim.TraceLine)
    (hnodup : (lines.map (fun l => l.2.1)).Nodup) :
    (MetaSim.loadTrace graphOf compOf scale lines).dag_dict.map Prod.fst
        = lines.map (fun l => l.2.1)
    ∧ (MetaSim.loadTrace graphOf compOf scale lines).dag_id_list
        = lines.map (fun l => l.2.1)
    ∧ (MetaSim.loadTrace graphOf compOf scale lines).end_list = [] := by
  have := loadTrace_go graphOf compOf scale lines ⟨[], [], []⟩ (by simpa using hnodup)
  simpa [MetaSim.loadTrace] using this

theorem drainCompletions_perm (cs : List MetaSim.CompletedTask) :
    ∀ st : MetaSim.MetaState,
      (∀ k, k ∈ st.dag_dict.map Prod.fst ↔ k ∈ st.dag_id_list) →
      st.dag_id_list.Nodup → (st.dag_dict.map Prod.fst).Nodup →
      List.Perm
        ((MetaSim.drainCompletions st cs).dag_id_list
          ++ (MetaSim.drainCompletions st cs).end_list.map (fun e => e.1))
        (st.dag_id_list ++ st.end_list.map (fun e => e.1)) := by
  induction cs with
  | nil =>
    intro st _ _ _
    exact List.Perm.refl _
  | cons c rest ih =>
    intro st hiff hnl hnk
    have hstep := processCompletion_invariant st c hiff hnl hnk
    have hrec := ih (MetaSim.processCompletion st c) hstep.1 hstep.2.1 hstep.2.2.1
    exact hrec.trans hstep.2.2.2

/-- C7: when the manager loop terminates with an empty active list, the
`out.csv` produced consists of the header followed by exactly one row per
DAG admitted from the arrival trace, the rows are sorted by DAG id
ascending, and the multiset of ids admitted from the trace equals the
multiset of ids written out. -/
theorem out_csv_preserves_dag_ids (graphOf : String → MetaSim.Graph)
    (compOf : String → List (List String)) (scale : Int)
    (lines : List MetaSim.TraceLine) (cs : List MetaSim.CompletedTask)
    (hnodup : (lines.map (fun l => l.2.1)).Nodup)
    (hdone : (MetaSim.drainCompletions
        (MetaSim.loadTrace graphOf compOf scale lines) cs).dag_id_list = []) :
    List.Perm
      ((MetaSim.outputRows (MetaSim.drainCompletions
          (MetaSim.loadTrace graphOf compOf scale lines) cs).end_list).map (fun e => e.1))
      (lines.map (fun l => l.2.1))
    ∧ ((MetaSim.outputRows (MetaSim.drainCompletions
          (MetaSim.loadTrace graphOf compOf scale lines) cs).end_list).map (fun e => e.1)).Pairwise
        (fun a b => a ≤ b)
    ∧ MetaSim.writeOutCsv (MetaSim.drainCompletions
          (MetaSim.loadTrace graphOf compOf scale lines) cs).end_list
        = "DAG ID,DAG Type,Response Time"
          :: (MetaSim.outputRows (MetaSim.drainCompletions
              (MetaSim.loadTrace graphOf compOf scale lines) cs).end_list).map
            (fun e => toString e.1 ++ "," ++ e.2.1 ++ "," ++ toString e.2.2)
    ∧ (MetaSim.writeOutCsv (MetaSim.drainCompletions
          (MetaSim.loadTrace graphOf compOf scale lines) cs).end_list).length
        = lines.length + 1 := by
  obtain ⟨hkeys, hlist, hend⟩ := loadTrace_spec graphOf compOf scale lines hnodup
  have hiff : ∀ k, k ∈ (MetaSim.loadTrace graphOf compOf scale lines).dag_dict.map Prod.fst
      ↔ k ∈ (MetaSim.loadTrace graphOf compOf scale lines).dag_id_list := by
    intro k
    rw [hkeys, hlist]
  have hperm := drainCompletions_perm cs (MetaSim.loadTrace graphOf compOf scale lines)
    hiff (by rw [hlist]; exact hnodup) (by rw [hkeys]; exact hnodup)
  rw [hdone, hlist, hend] at hperm
  have hids : List.Perm
      ((MetaSim.drainCompletions
        (MetaSim.loadTrace graphOf compOf scale lines) cs).end_list.map (fun e => e.1))
      (lines.map (fun l => l.2.1)) := by
    simpa using hperm
  have hrows : List.Perm
      ((MetaSim.outputRows (MetaSim.drainCompletions
        (MetaSim.loadTrace graphOf compOf scale lines) cs).end_list).map (fun e => e.1))
      ((MetaSim.drainCompletions
        (MetaSim.loadTrace graphOf compOf scale lines) cs).end_list.map (fun e => e.1)) :=
    (List.mergeSort_perm _ MetaSim.endEntryLe).map (fun e => e.1)
  refine ⟨hrows.trans hids, ?_, rfl, ?_⟩
  · have hsorted := List.sorted_mergeSort endEntryLe_trans_bool endEntryLe_total_bool
      (MetaSim.drainCompletions (MetaSim.loadTrace graphOf compOf scale lines) cs).end_list
    rw [List.pairwise_map]
    refine hsorted.imp ?_
    intro a b hab
    simpa [MetaSim.endEntryLe] using hab
  · rw [MetaSim.writeOutCsv]
    simp only [List.length_cons, List.length_map]
    have := (hrows.trans hids).length_eq
    simp only [List.length_map] at this
    rw [this]

/-- Concrete check of C7: two single-task DAGs (ids 5 and 3) are admitted,
both complete; `out.csv` carries one row each with ids sorted to `[3, 5]`,
a permutation of the admitted ids `[5, 3]`. -/
theorem out_csv_preserves_dag_ids_witness :
    List.Perm
      ((MetaSim.outputRows (MetaSim.drainCompletions
          (MetaSim.loadTrace (fun _ => ⟨[MetaSim.MetaTask.init 0], []⟩)
            (fun _ => [["0", "10", "10", "12", "14"]]) 1 [(2, 5, "A"), (1, 3, "A")])
          [⟨5, 0, 10, 7⟩, ⟨3, 0, 2, 4⟩]).end_list).map (fun e => e.1))
      ([(2, 5, "A"), (1, 3, "A")].map (fun l : MetaSim.TraceLine => l.2.1))
    ∧ (MetaSim.writeOutCsv (MetaSim.drainCompletions
          (MetaSim.loadTrace (fun _ => ⟨[MetaSim.MetaTask.init 0], []⟩)
            (fun _ => [["0", "10", "10", "12", "14"]]) 1 [(2, 5, "A"), (1, 3, "A")])
          [⟨5, 0, 10, 7⟩, ⟨3, 0, 2, 4⟩]).end_list).length
        = [(2, 5, "A"), (1, 3, "A")].length + 1 :=
  ⟨(out_csv_preserves_dag_ids (fun _ => ⟨[MetaSim.MetaTask.init 0], []⟩)
      (fun _ => [["0", "10", "10", "12", "14"]]) 1 [(2, 5, "A"), (1, 3, "A")]
      [⟨5, 0, 10, 7⟩, ⟨3, 0, 2, 4⟩] (by decide) rfl).1,
   (out_csv_preserves_dag_ids (fun _ => ⟨[MetaSim.MetaTask.init 0], []⟩)
      (fun _ => [["0", "10", "10", "12", "14"]]) 1 [(2, 5, "A"), (1, 3, "A")]
      [⟨5, 0, 10, 7⟩, ⟨3, 0, 2, 4⟩] (by decide) rfl).2.2.2⟩
